import Mathlib

/-!
Verification of the quasigroup analyzer (Cayley-table tools): shallow embedding
of the C++ sources (`main.cpp`, `quasigroup.cpp`) and proofs about the
Latin-square validator, the subquasigroup detector, and the
sequential-replacement-graph generator.

Conventions of the embedding:
* A Cayley table is a `List (List Int)` (C++ `std::vector<std::vector<int>>`).
* `std::unordered_set<int>` is embedded as a duplicate-free `List Nat`; insertion
  is guarded cons (`sinsert`), iteration order is the list order (the C++ set's
  iteration order is unspecified, so one canonical order is fixed).
* Unbounded `while` loops are embedded with an explicit fuel argument; the fuel
  passed at the call sites is proved sufficient where the claims need it.
* Randomness (`selectRandomElement`) is embedded as an oracle `Nat → Nat`
  giving, at each selection point, an index into the candidate list.
* `std::out_of_range` (thrown by `applyOperation`) is embedded as `Option`.
-/

namespace Quasi

/-- Cayley tables as stored by the program: a vector of rows of ints. -/
abbrev Table := List (List Int)

/-- Entry access `table[r][c]`; the default is irrelevant for the in-bounds
accesses the program performs. -/
def tableEntry (t : Table) (r c : Nat) : Int :=
  (t.getD r []).getD c (-1)

/-- Embedding of `Quasigroup::applyOperation` (and `Quasigroup::multiply` in
the second source file): bounds-checked lookup; `none` models the thrown
`std::out_of_range`. -/
def applyOperation (t : Table) (firstElement secondElement : Int) : Option Int :=
  if 0 ≤ firstElement ∧ firstElement < (t.length : Int) ∧
      0 ≤ secondElement ∧ secondElement < (t.length : Int) then
    some (tableEntry t firstElement.toNat secondElement.toNat)
  else
    none

/-- Total version of `applyOperation` used inside the detector loops: under the
Latin-square invariant every internal call is in bounds, so the lookup never
throws and always returns the table entry (as an element index). -/
def applyOp (t : Table) (x y : Nat) : Nat :=
  (tableEntry t x y).toNat

/-- Guarded insertion into a list used as a set (embeds `unordered_set::insert`;
the Bool is the `second` component telling whether insertion happened). -/
def sinsert (x : Nat) (s : List Nat) : List Nat :=
  if x ∈ s then s else x :: s

/-! ## The Latin-square validator (`isLatinSquare` in main.cpp) -/

/-- One row iteration of `isLatinSquare`: walks `column` upward for `remaining`
steps (the C++ `for` loop runs exactly `order` iterations), carrying the
`rowUsed` and `columnUsed` boolean arrays, probing the row value
`table[row][column]` and the column value `table[column][row]`. -/
def latinRowCheck (t : Table) (order row : Nat) :
    Nat → Nat → List Bool → List Bool → Bool
  | 0, _, _, _ => true
  | remaining + 1, column, rowUsed, columnUsed =>
    if tableEntry t row column < 0 ∨ (order : Int) ≤ tableEntry t row column ∨
        tableEntry t column row < 0 ∨ (order : Int) ≤ tableEntry t column row ∨
        rowUsed.getD (tableEntry t row column).toNat false = true ∨
        columnUsed.getD (tableEntry t column row).toNat false = true then
      false
    else
      latinRowCheck t order row remaining (column + 1)
        (rowUsed.set (tableEntry t row column).toNat true)
        (columnUsed.set (tableEntry t column row).toNat true)

/-- Embedding of `isLatinSquare`: every row index passes `latinRowCheck`
starting from fresh boolean arrays (the C++ early `return false` is equivalent
to the conjunction over rows). -/
def isLatinSquare (t : Table) : Bool :=
  (List.range t.length).all fun row =>
    latinRowCheck t t.length row t.length 0
      (List.replicate t.length false) (List.replicate t.length false)

/-! ## Simple generator (`generateCyclicGroupCayleyTable`) -/

/-- Embedding of `generateCyclicGroupCayleyTable`: `table[i][j] = (i + j) % n`. -/
def generateCyclicGroupCayleyTable (order : Nat) : Table :=
  (List.range order).map fun row =>
    (List.range order).map fun column => ((row + column) % order : Nat)

/-! ## The subquasigroup detector (`Quasigroup::hasSubquasigroups` and the two
`verify…Subquasigroup` helpers) -/

/-- The cycle-collection loop of `hasSubquasigroups`: starting from
`currentElement`, repeatedly insert into `cycleElements` and square, until an
insertion fails; every walked element is also marked in `visitedElements`.
Fuel bounds the walk (walked elements are pairwise distinct, so any fuel
exceeding the number of reachable elements is enough). -/
def orbitWalk (t : Table) : Nat → Nat → List Nat → List Nat → List Nat × List Nat
  | 0, _, cycleElements, visitedElements => (cycleElements, visitedElements)
  | fuel + 1, currentElement, cycleElements, visitedElements =>
    if currentElement ∈ cycleElements then (cycleElements, visitedElements)
    else
      orbitWalk t fuel (applyOp t currentElement currentElement)
        (currentElement :: cycleElements) (sinsert currentElement visitedElements)

/-- All ordered pairs of a snapshot list, in the nested-loop order of the C++
`for (firstElement …) for (secondElement …)`. -/
def pairsList (xs : List Nat) : List (Nat × Nat) :=
  xs.flatMap fun x => xs.map fun y => (x, y)

/-- Inner pair loop of `verifyProperSubquasigroup`: process the snapshot pairs,
inserting products into the closed set; `none` models the early `return false`
taken as soon as an insertion pushes the size above `order / 2`. -/
def properPairs (t : Table) (order : Nat) :
    List (Nat × Nat) → List Nat → Bool → Option (List Nat × Bool)
  | [], closedSet, setChanged => some (closedSet, setChanged)
  | (x, y) :: ps, closedSet, setChanged =>
    if applyOp t x y ∈ closedSet then properPairs t order ps closedSet setChanged
    else if order / 2 < closedSet.length + 1 then none
    else properPairs t order ps (applyOp t x y :: closedSet) true
  -- `setChanged` is only threaded for faithfulness to the C++ control flow
  -- (it is `true` on that last branch whatever its value was before).

/-- Outer fixpoint loop of `verifyProperSubquasigroup`. The fuel value passed
by `verifyProperSubquasigroup` is proved sufficient for in-range tables; at
fuel 0 the final-size test is returned. -/
def properLoop (t : Table) (order : Nat) : Nat → List Nat → Bool
  | 0, closedSet => decide (closedSet.length < order)
  | fuel + 1, closedSet =>
    match properPairs t order (pairsList closedSet) closedSet false with
    | none => false
    | some (closedSet2, true) => properLoop t order fuel closedSet2
    | some (closedSet2, false) => decide (closedSet2.length < order)

/-- Embedding of `Quasigroup::verifyProperSubquasigroup`. -/
def verifyProperSubquasigroup (t : Table) (seedSet : List Nat) : Bool :=
  properLoop t t.length (t.length + 2) seedSet

/-- Inner pair loop of `verifyNonTrivialSubquasigroup` (no early exit). -/
def nonTrivialPairs (t : Table) :
    List (Nat × Nat) → List Nat → Bool → List Nat × Bool
  | [], closedSet, setChanged => (closedSet, setChanged)
  | (x, y) :: ps, closedSet, setChanged =>
    if applyOp t x y ∈ closedSet then nonTrivialPairs t ps closedSet setChanged
    else nonTrivialPairs t ps (applyOp t x y :: closedSet) true

/-- Outer fixpoint loop of `verifyNonTrivialSubquasigroup`. -/
def nonTrivialLoop (t : Table) : Nat → List Nat → Bool
  | 0, closedSet => decide (1 < closedSet.length)
  | fuel + 1, closedSet =>
    match nonTrivialPairs t (pairsList closedSet) closedSet false with
    | (closedSet2, true) => nonTrivialLoop t fuel closedSet2
    | (closedSet2, false) => decide (1 < closedSet2.length)

/-- Embedding of `Quasigroup::verifyNonTrivialSubquasigroup`: a singleton seed
returns `false` immediately, otherwise the closure is computed and the final
size compared with 1. -/
def verifyNonTrivialSubquasigroup (t : Table) (seedSet : List Nat) : Bool :=
  if seedSet.length = 1 then false
  else nonTrivialLoop t (t.length + 2) seedSet

/-- Main loop of `Quasigroup::hasSubquasigroups`: iterate `startElement` over
`0 … order - 1` (the remaining count is the first argument), skipping visited
elements, collecting the squaring orbit of each unvisited start, and testing it
with the selected verifier. -/
def hasSubLoop (t : Table) (checkForProperSubquasigroups : Bool) :
    Nat → Nat → List Nat → Bool
  | 0, _, _ => false
  | remaining + 1, startElement, visitedElements =>
    if startElement ∈ visitedElements then
      hasSubLoop t checkForProperSubquasigroups remaining (startElement + 1)
        visitedElements
    else
      if (if checkForProperSubquasigroups then
            verifyProperSubquasigroup t
              (orbitWalk t (t.length + 2) startElement [] visitedElements).1
          else
            verifyNonTrivialSubquasigroup t
              (orbitWalk t (t.length + 2) startElement [] visitedElements).1) then
        true
      else
        hasSubLoop t checkForProperSubquasigroups remaining (startElement + 1)
          (orbitWalk t (t.length + 2) startElement [] visitedElements).2

/-- Embedding of `Quasigroup::hasSubquasigroups`. -/
def hasSubquasigroups (t : Table) (checkForProperSubquasigroups : Bool) : Bool :=
  hasSubLoop t checkForProperSubquasigroups t.length 0 []

end Quasi

namespace Quasi

/-! ## Characterization of the Latin-square validator -/

/-- In-range condition probed by `latinRowCheck` at row `row`, column `c`:
both the row value `table[row][c]` and the column value `table[c][row]` lie in
`[0, n)`. -/
def probeOk (t : Table) (n row c : Nat) : Prop :=
  0 ≤ tableEntry t row c ∧ tableEntry t row c < (n : Int) ∧
  0 ≤ tableEntry t c row ∧ tableEntry t c row < (n : Int)

instance (t : Table) (n row c : Nat) : Decidable (probeOk t n row c) := by
  unfold probeOk; infer_instance

lemma getD_set_true_eq_false_iff (l : List Bool) (i j : Nat) (hi : i < l.length) :
    ((l.set i true).getD j false = false) ↔ (j ≠ i ∧ l.getD j false = false) := by
  rcases eq_or_ne j i with rfl | hne
  · simp [List.getD_eq_getElem?_getD, List.getElem?_set_self hi]
  · simp [List.getD_eq_getElem?_getD, List.getElem?_set_ne (Ne.symm hne), hne]

lemma getD_replicate_false (n j : Nat) :
    (List.replicate n false).getD j false = false := by
  rw [List.getD_eq_getElem?_getD, List.getElem?_replicate]
  split <;> rfl

/-- Full characterization of one `latinRowCheck` sweep, by induction on the
remaining column count, with arbitrary used-arrays. -/
lemma latinRowCheck_iff (t : Table) (n row : Nat) :
    ∀ (remaining column : Nat) (ru cu : List Bool),
      ru.length = n → cu.length = n →
      (latinRowCheck t n row remaining column ru cu = true ↔
        ∀ c, column ≤ c → c < column + remaining →
          probeOk t n row c ∧
          ru.getD (tableEntry t row c).toNat false = false ∧
          cu.getD (tableEntry t c row).toNat false = false ∧
          (∀ c2, column ≤ c2 → c2 < c →
            tableEntry t row c2 ≠ tableEntry t row c ∧
            tableEntry t c2 row ≠ tableEntry t c row)) := by
  intro remaining
  induction remaining with
  | zero =>
    intro column ru cu hru hcu
    rw [latinRowCheck]
    simp only [true_iff]
    intro c hc1 hc2
    omega
  | succ k ih =>
    intro column ru cu hru hcu
    rw [latinRowCheck]
    set rv := tableEntry t row column with hrv
    set cv := tableEntry t column row with hcv
    by_cases hC : rv < 0 ∨ (n : Int) ≤ rv ∨ cv < 0 ∨ (n : Int) ≤ cv ∨
        ru.getD rv.toNat false = true ∨ cu.getD cv.toNat false = true
    · rw [if_pos hC]
      simp only [Bool.false_eq_true, false_iff]
      intro hAll
      obtain ⟨hpo, hruF, hcuF, -⟩ := hAll column le_rfl (by omega)
      obtain ⟨h1, h2, h3, h4⟩ := hpo
      rcases hC with h | h | h | h | h | h
      · exact absurd h1 (by omega)
      · exact absurd h2 (by omega)
      · exact absurd h3 (by omega)
      · exact absurd h4 (by omega)
      · rw [hruF] at h; exact Bool.false_ne_true h
      · rw [hcuF] at h; exact Bool.false_ne_true h
    · push_neg at hC
      obtain ⟨h1, h2, h3, h4, h5, h6⟩ := hC
      have hrv0 : (0 : Int) ≤ rv := by omega
      have hcv0 : (0 : Int) ≤ cv := by omega
      have hruF : ru.getD rv.toNat false = false := by
        cases hb : ru.getD rv.toNat false
        · rfl
        · exact absurd hb h5
      have hcuF : cu.getD cv.toNat false = false := by
        cases hb : cu.getD cv.toNat false
        · rfl
        · exact absurd hb h6
      rw [if_neg (by push_neg; exact ⟨h1, h2, h3, h4, h5, h6⟩)]
      have hrulen : (ru.set rv.toNat true).length = n := by
        rw [List.length_set]; exact hru
      have hculen : (cu.set cv.toNat true).length = n := by
        rw [List.length_set]; exact hcu
      rw [ih (column + 1) (ru.set rv.toNat true) (cu.set cv.toNat true)
        hrulen hculen]
      constructor
      · -- from the sweep starting at column+1 to the sweep starting at column
        intro hAll c hc1 hc2
        rcases eq_or_lt_of_le hc1 with rfl | hlt
        · refine ⟨⟨hrv0, h2, hcv0, h4⟩, hruF, hcuF, ?_⟩
          intro c2 hc21 hc22
          omega
        · obtain ⟨hpo, hruS, hcuS, hdist⟩ := hAll c hlt (by omega)
          have hrvne : (tableEntry t row c).toNat ≠ rv.toNat ∧
              ru.getD (tableEntry t row c).toNat false = false := by
            have := (getD_set_true_eq_false_iff ru rv.toNat
              (tableEntry t row c).toNat (by omega)).mp hruS
            exact this
          have hcvne : (tableEntry t c row).toNat ≠ cv.toNat ∧
              cu.getD (tableEntry t c row).toNat false = false := by
            have := (getD_set_true_eq_false_iff cu cv.toNat
              (tableEntry t c row).toNat (by omega)).mp hcuS
            exact this
          refine ⟨hpo, hrvne.2, hcvne.2, ?_⟩
          intro c2 hc21 hc22
          rcases eq_or_lt_of_le hc21 with rfl | hlt2
          · obtain ⟨hp1, hp2, hp3, hp4⟩ := hpo
            constructor
            · intro heq
              exact hrvne.1 (by rw [← heq])
            · intro heq
              exact hcvne.1 (by rw [← heq])
          · exact hdist c2 hlt2 hc22
      · -- from the sweep starting at column to the sweep starting at column+1
        intro hAll c hc1 hc2
        obtain ⟨hpo, hruS, hcuS, hdist⟩ := hAll c (by omega) (by omega)
        obtain ⟨hp1, hp2, hp3, hp4⟩ := hpo
        have hd := hdist column le_rfl (by omega)
        refine ⟨⟨hp1, hp2, hp3, hp4⟩, ?_, ?_, ?_⟩
        · rw [getD_set_true_eq_false_iff ru rv.toNat
            (tableEntry t row c).toNat (by omega)]
          refine ⟨?_, hruS⟩
          intro heq
          exact hd.1 (by omega)
        · rw [getD_set_true_eq_false_iff cu cv.toNat
            (tableEntry t c row).toNat (by omega)]
          refine ⟨?_, hcuS⟩
          intro heq
          exact hd.2 (by omega)
        · intro c2 hc21 hc22
          exact hdist c2 (by omega) hc22
end Quasi

namespace Quasi

/-- The mathematical Latin-square property as probed by the validator: all
entries in `[0, order)`, no repeat inside a row, no repeat inside a column. -/
def latinProp (t : Table) : Prop :=
  (∀ r < t.length, ∀ c < t.length,
      0 ≤ tableEntry t r c ∧ tableEntry t r c < (t.length : Int)) ∧
  (∀ r < t.length, ∀ c < t.length, ∀ c2 < t.length, c2 ≠ c →
      tableEntry t r c2 ≠ tableEntry t r c) ∧
  (∀ c < t.length, ∀ r < t.length, ∀ r2 < t.length, r2 ≠ r →
      tableEntry t r2 c ≠ tableEntry t r c)

lemma isLatinSquare_iff_latinProp (t : Table) :
    isLatinSquare t = true ↔ latinProp t := by
  unfold isLatinSquare latinProp
  rw [List.all_eq_true]
  have hrow : ∀ row, (latinRowCheck t t.length row t.length 0
      (List.replicate t.length false) (List.replicate t.length false) = true ↔
      ∀ c, c < t.length → probeOk t t.length row c ∧
        (∀ c2, c2 < c → tableEntry t row c2 ≠ tableEntry t row c ∧
          tableEntry t c2 row ≠ tableEntry t c row)) := by
    intro row
    rw [latinRowCheck_iff t t.length row t.length 0
      (List.replicate t.length false) (List.replicate t.length false)
      (by simp) (by simp)]
    constructor
    · intro h c hc
      obtain ⟨hpo, -, -, hd⟩ := h c (Nat.zero_le c) (by omega)
      exact ⟨hpo, fun c2 hc2 => hd c2 (Nat.zero_le c2) hc2⟩
    · intro h c _ hc
      obtain ⟨hpo, hd⟩ := h c (by omega)
      exact ⟨hpo, getD_replicate_false _ _, getD_replicate_false _ _,
        fun c2 _ hc2 => hd c2 hc2⟩
  constructor
  · intro h
    have hall : ∀ row, row < t.length → ∀ c, c < t.length →
        probeOk t t.length row c ∧
        (∀ c2, c2 < c → tableEntry t row c2 ≠ tableEntry t row c ∧
          tableEntry t c2 row ≠ tableEntry t c row) :=
      fun row hr => (hrow row).mp (h row (List.mem_range.mpr hr))
    refine ⟨?_, ?_, ?_⟩
    · intro r hr c hc
      exact ⟨(hall r hr c hc).1.1, (hall r hr c hc).1.2.1⟩
    · intro r hr c hc c2 hc2 hne
      rcases Nat.lt_or_ge c2 c with hlt | hge
      · exact ((hall r hr c hc).2 c2 hlt).1
      · have hlt : c < c2 := by omega
        exact fun heq => ((hall r hr c2 hc2).2 c hlt).1 heq.symm
    · intro c hc r hr r2 hr2 hne
      rcases Nat.lt_or_ge r2 r with hlt | hge
      · exact ((hall c hc r hr).2 r2 hlt).2
      · have hlt : r < r2 := by omega
        exact fun heq => ((hall c hc r2 hr2).2 r hlt).2 heq.symm
  · rintro ⟨hrange, hrowd, hcold⟩ row hrmem
    rw [hrow row]
    have hr := List.mem_range.mp hrmem
    intro c hc
    refine ⟨⟨(hrange row hr c hc).1, (hrange row hr c hc).2,
      (hrange c hc row hr).1, (hrange c hc row hr).2⟩, ?_⟩
    intro c2 hc2
    constructor
    · exact hrowd row hr c hc c2 (by omega) (by omega)
    · exact hcold row hr c hc c2 (by omega) (by omega)

/-- A table permuted by a simultaneous row permutation `σ` and a simultaneous
column permutation `τ`: entry `(r, c)` of the result is `table[σ r][τ c]`. -/
def permuteTable (t : Table) (σ τ : Nat → Nat) : Table :=
  (List.range t.length).map fun r =>
    (List.range t.length).map fun c => tableEntry t (σ r) (τ c)

lemma length_permuteTable (t : Table) (σ τ : Nat → Nat) :
    (permuteTable t σ τ).length = t.length := by
  simp [permuteTable]

lemma tableEntry_permuteTable (t : Table) (σ τ : Nat → Nat) (r c : Nat)
    (hr : r < t.length) (hc : c < t.length) :
    tableEntry (permuteTable t σ τ) r c = tableEntry t (σ r) (τ c) := by
  have h1 : (permuteTable t σ τ).getD r [] =
      (List.range t.length).map fun c => tableEntry t (σ r) (τ c) := by
    rw [permuteTable, List.getD_eq_getElem?_getD, List.getElem?_map,
      List.getElem?_range hr]
    rfl
  rw [tableEntry, h1, List.getD_eq_getElem?_getD, List.getElem?_map,
    List.getElem?_range hc]
  rfl

end Quasi

namespace Quasi

/-- C7: for every table and all integers `a`, `b`, `applyOperation` returns
`table[a][b]` when both `a` and `b` lie in `[0, order)`, and signals the
out-of-range error (`none`, never a value) when either lies outside. -/
theorem claim_C7_apply_contract (t : Table) (a b : Int) :
    ((0 ≤ a ∧ a < (t.length : Int) ∧ 0 ≤ b ∧ b < (t.length : Int)) →
      applyOperation t a b = some (tableEntry t a.toNat b.toNat)) ∧
    (¬ (0 ≤ a ∧ a < (t.length : Int) ∧ 0 ≤ b ∧ b < (t.length : Int)) →
      applyOperation t a b = none) := by
  unfold applyOperation
  exact ⟨fun h => if_pos h, fun h => if_neg h⟩

/-- Witness for C7 at a concrete table: an in-range call returns the entry and
an out-of-range call returns the error. -/
theorem claim_C7_witness :
    applyOperation [[0, 1], [1, 0]] 0 1 = some 1 ∧
    applyOperation [[0, 1], [1, 0]] 2 0 = none := by
  constructor
  · exact ((claim_C7_apply_contract [[0, 1], [1, 0]] 0 1).1 (by decide)).trans
      (by decide)
  · exact (claim_C7_apply_contract [[0, 1], [1, 0]] 2 0).2 (by decide)

/-- C8: on a square table, the validator returns true iff every entry lies in
`[0, order)` and no value repeats within any row or any column (`latinProp`). -/
theorem claim_C8_validator_iff (t : Table) (_hsq : ∀ r ∈ t, r.length = t.length) :
    isLatinSquare t = true ↔ latinProp t :=
  isLatinSquare_iff_latinProp t

/-- Witness for C8 at a concrete square table. -/
theorem claim_C8_validator_iff_witness :
    latinProp [[0, 1], [1, 0]] :=
  (claim_C8_validator_iff [[0, 1], [1, 0]] (by decide)).mp (by decide)

/-- C9: the validator accepts every simultaneous row-and-column permutation of
a table it accepts. -/
theorem claim_C9_permutation_invariant (t : Table) (σ τ : Nat → Nat)
    (hlatin : isLatinSquare t = true)
    (hσ : ∀ i < t.length, σ i < t.length)
    (hσinj : ∀ i < t.length, ∀ j < t.length, σ i = σ j → i = j)
    (hτ : ∀ i < t.length, τ i < t.length)
    (hτinj : ∀ i < t.length, ∀ j < t.length, τ i = τ j → i = j) :
    isLatinSquare (permuteTable t σ τ) = true := by
  rw [isLatinSquare_iff_latinProp] at hlatin ⊢
  obtain ⟨hrange, hrowd, hcold⟩ := hlatin
  have hlen := length_permuteTable t σ τ
  refine ⟨?_, ?_, ?_⟩
  · intro r hr c hc
    rw [hlen] at hr hc
    rw [tableEntry_permuteTable t σ τ r c hr hc, hlen]
    exact hrange (σ r) (hσ r hr) (τ c) (hτ c hc)
  · intro r hr c hc c2 hc2 hne
    rw [hlen] at hr hc hc2
    rw [tableEntry_permuteTable t σ τ r c hr hc,
      tableEntry_permuteTable t σ τ r c2 hr hc2]
    exact hrowd (σ r) (hσ r hr) (τ c) (hτ c hc) (τ c2) (hτ c2 hc2)
      fun heq => hne (hτinj c2 hc2 c hc heq)
  · intro c hc r hr r2 hr2 hne
    rw [hlen] at hr hc hr2
    rw [tableEntry_permuteTable t σ τ r c hr hc,
      tableEntry_permuteTable t σ τ r2 c hr2 hc]
    exact hcold (τ c) (hτ c hc) (σ r) (hσ r hr) (σ r2) (hσ r2 hr2)
      fun heq => hne (hσinj r2 hr2 r hr heq)

/-- Witness for C9: swapping the two rows and keeping columns of a concrete
Latin square is still accepted. -/
theorem claim_C9_permutation_invariant_witness :
    isLatinSquare (permuteTable [[0, 1], [1, 0]] (fun i => 1 - i) (fun i => i)) =
      true :=
  claim_C9_permutation_invariant [[0, 1], [1, 0]] (fun i => 1 - i) (fun i => i)
    (by decide) (by decide) (by decide) (by decide) (by decide)

end Quasi

namespace Quasi

/-! ## Characterization of the NON_TRIVIAL detector mode -/

lemma mem_sinsert (x y : Nat) (s : List Nat) :
    y ∈ sinsert x s ↔ y = x ∨ y ∈ s := by
  unfold sinsert
  split
  · constructor
    · exact Or.inr
    · rintro (rfl | h)
      · assumption
      · assumption
  · simp [List.mem_cons]

lemma nonTrivialPairs_length_le (t : Table) :
    ∀ (ps : List (Nat × Nat)) (s : List Nat) (ch : Bool),
      s.length ≤ (nonTrivialPairs t ps s ch).1.length := by
  intro ps
  induction ps with
  | nil => intro s ch; exact le_rfl
  | cons p ps ih =>
    intro s ch
    obtain ⟨x, y⟩ := p
    rw [nonTrivialPairs]
    split
    · exact ih s ch
    · calc s.length ≤ (applyOp t x y :: s).length := by simp
        _ ≤ _ := ih _ true

lemma nonTrivialLoop_of_two_le (t : Table) :
    ∀ (fuel : Nat) (s : List Nat), 2 ≤ s.length →
      nonTrivialLoop t fuel s = true := by
  intro fuel
  induction fuel with
  | zero => intro s hs; simpa [nonTrivialLoop] using hs
  | succ fuel ih =>
    intro s hs
    rw [nonTrivialLoop]
    rcases hres : nonTrivialPairs t (pairsList s) s false with ⟨s2, ch2⟩
    have hle : s.length ≤ s2.length := by
      have h0 := nonTrivialPairs_length_le t (pairsList s) s false
      rw [hres] at h0
      exact h0
    cases ch2
    · simp only [decide_eq_true_eq]
      omega
    · exact ih s2 (by omega)

lemma nonTrivialLoop_nil (t : Table) (fuel : Nat) :
    nonTrivialLoop t fuel [] = false := by
  cases fuel
  · simp [nonTrivialLoop]
  · simp [nonTrivialLoop, pairsList, nonTrivialPairs]

/-- The NON_TRIVIAL verifier depends only on the seed size: a seed of size ≥ 2
closes to something of size ≥ 2, and seeds of size ≤ 1 report false. -/
lemma verifyNonTrivial_eq (t : Table) (s : List Nat) :
    verifyNonTrivialSubquasigroup t s = decide (1 < s.length) := by
  unfold verifyNonTrivialSubquasigroup
  rcases s with _ | ⟨a, _ | ⟨b, s⟩⟩
  · simp [nonTrivialLoop_nil]
  · simp
  · rw [if_neg (by simp)]
    rw [nonTrivialLoop_of_two_le t _ _ (by simp)]
    simp

/-! ## Orbit-walk lemmas -/

lemma orbitWalk_cycle_le (t : Table) :
    ∀ (fuel cur : Nat) (cyc vis : List Nat),
      cyc.length ≤ (orbitWalk t fuel cur cyc vis).1.length := by
  intro fuel
  induction fuel with
  | zero => intro cur cyc vis; exact le_rfl
  | succ fuel ih =>
    intro cur cyc vis
    rw [orbitWalk]
    split
    · exact le_rfl
    · calc cyc.length ≤ (cur :: cyc).length := by simp
        _ ≤ _ := ih _ _ _

/-- An idempotent start walks to the singleton orbit. -/
lemma orbitWalk_self (t : Table) (fuel x : Nat) (vis : List Nat)
    (h : applyOp t x x = x) :
    orbitWalk t (fuel + 2) x [] vis = ([x], sinsert x vis) := by
  rw [orbitWalk]
  simp only [List.not_mem_nil, if_false]
  rw [h, orbitWalk]
  simp

/-- A non-idempotent start yields an orbit with at least two elements. -/
lemma orbitWalk_two_le (t : Table) (fuel x : Nat) (vis : List Nat)
    (h : applyOp t x x ≠ x) :
    2 ≤ (orbitWalk t (fuel + 2) x [] vis).1.length := by
  rw [orbitWalk]
  simp only [List.not_mem_nil, if_false]
  rw [orbitWalk]
  have hx : applyOp t x x ∉ [x] := by simpa using h
  rw [if_neg hx]
  calc (2 : Nat) = ([applyOp t x x, x] : List Nat).length := by simp
    _ ≤ _ := orbitWalk_cycle_le t fuel _ _ _

/-! ## Characterization of `hasSubquasigroups` in NON_TRIVIAL mode -/

lemma hasSubLoop_false_of_idem (t : Table) :
    ∀ (rem start : Nat) (visited : List Nat),
      (∀ x, start ≤ x → x < start + rem → applyOp t x x = x) →
      hasSubLoop t false rem start visited = false := by
  intro rem
  induction rem with
  | zero => intro start visited _; rfl
  | succ rem ih =>
    intro start visited h
    rw [hasSubLoop]
    split
    · exact ih (start + 1) visited fun x h1 h2 => h x (by omega) (by omega)
    · have hself : applyOp t start start = start := h start le_rfl (by omega)
      have hwalk : orbitWalk t (t.length + 2) start [] visited =
          ([start], sinsert start visited) := orbitWalk_self t t.length start visited hself
      rw [hwalk]
      simp only [Bool.if_false_left, Bool.if_true_left]
      rw [verifyNonTrivial_eq]
      simp only [List.length_singleton, decide_eq_true_eq]
      rw [if_neg (by simp)]
      exact ih (start + 1) (sinsert start visited)
        fun x h1 h2 => h x (by omega) (by omega)

lemma hasSubLoop_false_to_idem (t : Table) :
    ∀ (rem start : Nat) (visited : List Nat),
      hasSubLoop t false rem start visited = false →
      (∀ v ∈ visited, applyOp t v v = v) →
      ∀ x, start ≤ x → x < start + rem → applyOp t x x = x := by
  intro rem
  induction rem with
  | zero => intro start visited _ _ x h1 h2; omega
  | succ rem ih =>
    intro start visited hfalse hvis x h1 h2
    rw [hasSubLoop] at hfalse
    by_cases hmem : start ∈ visited
    · rw [if_pos hmem] at hfalse
      rcases eq_or_lt_of_le h1 with rfl | hlt
      · exact hvis _ hmem
      · exact ih (start + 1) visited hfalse hvis x (by omega) (by omega)
    · rw [if_neg hmem] at hfalse
      by_cases hidem : applyOp t start start = start
      · rw [orbitWalk_self t t.length start visited hidem] at hfalse
        simp only [verifyNonTrivial_eq, List.length_singleton,
          decide_eq_true_eq] at hfalse
        rw [if_neg (by simp)] at hfalse
        rcases eq_or_lt_of_le h1 with rfl | hlt
        · exact hidem
        · refine ih (start + 1) (sinsert start visited) hfalse ?_ x (by omega) (by omega)
          intro v hv
          rcases (mem_sinsert start v visited).mp hv with rfl | hv2
          · exact hidem
          · exact hvis v hv2
      · exfalso
        have h2le := orbitWalk_two_le t t.length start visited hidem
        rw [verifyNonTrivial_eq] at hfalse
        have : decide (1 < (orbitWalk t (t.length + 2) start [] visited).1.length) =
            true := by
          simp only [decide_eq_true_eq]
          omega
        rw [this] at hfalse
        simp at hfalse

/-- The NON_TRIVIAL detector returns false exactly when every element is
idempotent for the (total) operation. -/
lemma hasSub_false_iff_idem (t : Table) :
    hasSubquasigroups t false = false ↔
      ∀ x, x < t.length → applyOp t x x = x := by
  constructor
  · intro h x hx
    exact hasSubLoop_false_to_idem t t.length 0 [] h (by simp) x (by omega) (by omega)
  · intro h
    exact hasSubLoop_false_of_idem t t.length 0 [] fun x h1 h2 => h x (by omega)

end Quasi

namespace Quasi

/-! ## Finite-set closure rounds (specification side for the PROPER mode) -/

/-- All internal products stay below the order (consequence of the
Latin-square invariant that the detector claims assume). -/
def opInRange (t : Table) : Prop :=
  ∀ x, x < t.length → ∀ y, y < t.length → applyOp t x y < t.length

/-- One closure round: adjoin all pairwise products of the current set (this
is what one full pass of the C++ pair loop over a snapshot computes). -/
def stepProducts (t : Table) (S : Finset Nat) : Finset Nat :=
  S ∪ (S ×ˢ S).image fun p => applyOp t p.1 p.2

/-- Iterated closure rounds. -/
def closureIter (t : Table) : Nat → Finset Nat → Finset Nat
  | 0, S => S
  | k + 1, S => closureIter t k (stepProducts t S)

/-- The closure of a seed under the operation: `order + 1` rounds, enough to
reach the fixed point whenever all elements stay below the order. -/
def closureFin (t : Table) (S : Finset Nat) : Finset Nat :=
  closureIter t (t.length + 1) S

lemma subset_stepProducts (t : Table) (S : Finset Nat) : S ⊆ stepProducts t S :=
  Finset.subset_union_left

lemma mem_stepProducts_of_mem (t : Table) (S : Finset Nat) (x y : Nat)
    (hx : x ∈ S) (hy : y ∈ S) : applyOp t x y ∈ stepProducts t S := by
  unfold stepProducts
  rw [Finset.mem_union]
  right
  rw [Finset.mem_image]
  exact ⟨(x, y), Finset.mem_product.mpr ⟨hx, hy⟩, rfl⟩

lemma stepProducts_subset_range (t : Table) (hin : opInRange t) (S : Finset Nat)
    (hS : S ⊆ Finset.range t.length) :
    stepProducts t S ⊆ Finset.range t.length := by
  intro z hz
  rw [stepProducts, Finset.mem_union] at hz
  rcases hz with hz | hz
  · exact hS hz
  · rw [Finset.mem_image] at hz
    obtain ⟨⟨x, y⟩, hxy, rfl⟩ := hz
    rw [Finset.mem_product] at hxy
    rw [Finset.mem_range]
    exact hin x (Finset.mem_range.mp (hS hxy.1)) y (Finset.mem_range.mp (hS hxy.2))

lemma closureIter_of_fix (t : Table) (S : Finset Nat)
    (h : stepProducts t S = S) : ∀ k, closureIter t k S = S := by
  intro k
  induction k with
  | zero => rfl
  | succ k ih => rw [closureIter, h]; exact ih

lemma closureIter_add (t : Table) :
    ∀ (a b : Nat) (S : Finset Nat),
      closureIter t (a + b) S = closureIter t a (closureIter t b S) := by
  intro a b
  induction b generalizing a with
  | zero => intro S; rfl
  | succ b ih =>
    intro S
    have h1 : a + (b + 1) = a + b + 1 := by omega
    rw [h1, closureIter, ih a (stepProducts t S), closureIter]

lemma closureIter_succ_comm (t : Table) :
    ∀ (k : Nat) (S : Finset Nat),
      closureIter t (k + 1) S = stepProducts t (closureIter t k S) := by
  intro k
  induction k with
  | zero => intro S; rfl
  | succ k ih =>
    intro S
    rw [closureIter, ih (stepProducts t S), closureIter]

lemma subset_closureIter (t : Table) :
    ∀ (k : Nat) (S : Finset Nat), S ⊆ closureIter t k S := by
  intro k
  induction k with
  | zero => intro S; exact Finset.Subset.refl S
  | succ k ih =>
    intro S
    rw [closureIter]
    exact (subset_stepProducts t S).trans (ih (stepProducts t S))

lemma closureIter_subset_range (t : Table) (hin : opInRange t) :
    ∀ (k : Nat) (S : Finset Nat), S ⊆ Finset.range t.length →
      closureIter t k S ⊆ Finset.range t.length := by
  intro k
  induction k with
  | zero => intro S hS; exact hS
  | succ k ih =>
    intro S hS
    rw [closureIter]
    exact ih (stepProducts t S) (stepProducts_subset_range t hin S hS)

lemma closureIter_mono_k (t : Table) (j k : Nat) (hjk : j ≤ k) (S : Finset Nat) :
    closureIter t j S ⊆ closureIter t k S := by
  obtain ⟨d, rfl⟩ := Nat.exists_eq_add_of_le hjk
  rw [Nat.add_comm j d, closureIter_add]
  exact subset_closureIter t d (closureIter t j S)

lemma card_growth (t : Table) (S : Finset Nat) :
    ∀ k, (∀ j, j < k → closureIter t (j + 1) S ≠ closureIter t j S) →
      S.card + k ≤ (closureIter t k S).card := by
  intro k
  induction k with
  | zero => intro _; simp [closureIter]
  | succ k ih =>
    intro h
    have hk := ih fun j hj => h j (by omega)
    have hsub : closureIter t k S ⊆ closureIter t (k + 1) S := by
      rw [closureIter_succ_comm]
      exact subset_stepProducts t (closureIter t k S)
    have hne : closureIter t (k + 1) S ≠ closureIter t k S := h k (by omega)
    have hlt : (closureIter t k S).card < (closureIter t (k + 1) S).card := by
      apply Finset.card_lt_card
      rw [Finset.ssubset_def]
      exact ⟨hsub, fun hback => hne (subset_antisymm hback hsub)⟩
    omega

/-- The closure reaches its fixed point: one more round does not change it. -/
lemma stepProducts_closureFin (t : Table) (hin : opInRange t) (S : Finset Nat)
    (hS : S ⊆ Finset.range t.length) :
    stepProducts t (closureFin t S) = closureFin t S := by
  have hbound : ∀ k, (closureIter t k S).card ≤ t.length := by
    intro k
    have := Finset.card_le_card (closureIter_subset_range t hin k S hS)
    rwa [Finset.card_range] at this
  have hfix : ∃ j, j ≤ t.length ∧ closureIter t (j + 1) S = closureIter t j S := by
    by_contra hno
    push_neg at hno
    have := card_growth t S (t.length + 1) fun j hj => hno j (by omega)
    have := hbound (t.length + 1)
    omega
  obtain ⟨j, hj, hfixj⟩ := hfix
  have hstep : stepProducts t (closureIter t j S) = closureIter t j S := by
    rw [← closureIter_succ_comm]
    exact hfixj
  have hall : ∀ m, closureIter t (j + m) S = closureIter t j S := by
    intro m
    rw [Nat.add_comm j m, closureIter_add t m j S,
      closureIter_of_fix t (closureIter t j S) hstep m]
  have hFin : closureFin t S = closureIter t j S := by
    rw [closureFin]
    have : t.length + 1 = j + (t.length + 1 - j) := by omega
    rw [this, hall (t.length + 1 - j)]
  rw [hFin, hstep]

lemma subset_closureFin (t : Table) (S : Finset Nat) : S ⊆ closureFin t S :=
  subset_closureIter t (t.length + 1) S

/-- Closing after one extra round yields the same closure. -/
lemma closureFin_stepProducts (t : Table) (hin : opInRange t) (S : Finset Nat)
    (hS : S ⊆ Finset.range t.length) :
    closureFin t (stepProducts t S) = closureFin t S := by
  have h1 : closureFin t (stepProducts t S) = closureIter t (1 + (t.length + 1)) S := by
    rw [closureFin]
    have h2 : 1 + (t.length + 1) = (t.length + 1) + 1 := by omega
    rw [h2]
    rfl
  rw [h1, closureIter_add t 1 (t.length + 1) S]
  exact stepProducts_closureFin t hin S hS

end Quasi

namespace Quasi

/-! ## Characterization of the PROPER pair loop -/

lemma mem_pairsList (s : List Nat) (p : Nat × Nat) :
    p ∈ pairsList s ↔ p.1 ∈ s ∧ p.2 ∈ s := by
  obtain ⟨x, y⟩ := p
  unfold pairsList
  rw [List.mem_flatMap]
  constructor
  · rintro ⟨a, ha, hmem⟩
    rw [List.mem_map] at hmem
    obtain ⟨b, hb, heq⟩ := hmem
    cases heq
    exact ⟨ha, hb⟩
  · rintro ⟨hx, hy⟩
    exact ⟨x, hx, List.mem_map.mpr ⟨y, hy, rfl⟩⟩

lemma pairs_products_toFinset (t : Table) (s : List Nat) :
    ((pairsList s).map fun p => applyOp t p.1 p.2).toFinset =
      (s.toFinset ×ˢ s.toFinset).image fun p => applyOp t p.1 p.2 := by
  ext z
  simp only [List.mem_toFinset, List.mem_map, Finset.mem_image, Finset.mem_product]
  constructor
  · rintro ⟨p, hp, rfl⟩
    exact ⟨p, (mem_pairsList s p).mp hp, rfl⟩
  · rintro ⟨p, hp, rfl⟩
    exact ⟨p, (mem_pairsList s p).mpr hp, rfl⟩

lemma properPairs_all_mem (t : Table) (n : Nat) :
    ∀ (ps : List (Nat × Nat)) (s : List Nat) (ch : Bool),
      (∀ p ∈ ps, applyOp t p.1 p.2 ∈ s) →
      properPairs t n ps s ch = some (s, ch) := by
  intro ps
  induction ps with
  | nil => intro s ch _; rfl
  | cons p ps ih =>
    intro s ch h
    obtain ⟨x, y⟩ := p
    rw [properPairs, if_pos (h (x, y) (List.mem_cons_self _ _))]
    exact ih s ch fun q hq => h q (List.mem_cons_of_mem _ hq)

lemma properPairs_not_subset (t : Table) (n : Nat) :
    ∀ (ps : List (Nat × Nat)) (s : List Nat) (ch : Bool), s.Nodup →
      ¬ ((ps.map fun p => applyOp t p.1 p.2).toFinset ⊆ s.toFinset) →
      ((n / 2 < (s.toFinset ∪ (ps.map fun p => applyOp t p.1 p.2).toFinset).card →
          properPairs t n ps s ch = none) ∧
       ((s.toFinset ∪ (ps.map fun p => applyOp t p.1 p.2).toFinset).card ≤ n / 2 →
          ∃ s2, properPairs t n ps s ch = some (s2, true) ∧ s2.Nodup ∧
            s2.toFinset =
              s.toFinset ∪ (ps.map fun p => applyOp t p.1 p.2).toFinset)) := by
  intro ps
  induction ps with
  | nil =>
    intro s ch hnd hns
    exact absurd (by simp) hns
  | cons p ps ih =>
    intro s ch hnd hns
    obtain ⟨x, y⟩ := p
    simp only [List.map_cons, List.toFinset_cons] at hns ⊢
    by_cases hr : applyOp t x y ∈ s
    · have hrF : applyOp t x y ∈ s.toFinset := List.mem_toFinset.mpr hr
      have hTeq : s.toFinset ∪ insert (applyOp t x y)
          (ps.map fun p => applyOp t p.1 p.2).toFinset =
          s.toFinset ∪ (ps.map fun p => applyOp t p.1 p.2).toFinset := by
        rw [Finset.union_insert, Finset.insert_eq_self.mpr
          (Finset.mem_union_left _ hrF)]
      have hns2 : ¬ ((ps.map fun p => applyOp t p.1 p.2).toFinset ⊆ s.toFinset) := by
        intro hsub
        exact hns (Finset.insert_subset hrF hsub)
      rw [properPairs, if_pos hr]
      rw [hTeq]
      exact ih s ch hnd hns2
    · have hrF : applyOp t x y ∉ s.toFinset := fun h => hr (List.mem_toFinset.mp h)
      rw [properPairs, if_neg hr]
      by_cases habort : n / 2 < s.length + 1
      · rw [if_pos habort]
        constructor
        · intro _; rfl
        · intro hcard
          exfalso
          have hins : insert (applyOp t x y) s.toFinset ⊆
              s.toFinset ∪ insert (applyOp t x y)
                (ps.map fun p => applyOp t p.1 p.2).toFinset := by
            intro z hz
            rw [Finset.mem_insert] at hz
            rcases hz with rfl | hz
            · exact Finset.mem_union_right _ (Finset.mem_insert_self _ _)
            · exact Finset.mem_union_left _ hz
          have h1 := Finset.card_le_card hins
          rw [Finset.card_insert_of_not_mem hrF,
            List.toFinset_card_of_nodup hnd] at h1
          omega
      · rw [if_neg habort]
        have hnd2 : (applyOp t x y :: s).Nodup := by
          rw [List.nodup_cons]
          exact ⟨hr, hnd⟩
        have hTeq : (applyOp t x y :: s).toFinset ∪
            (ps.map fun p => applyOp t p.1 p.2).toFinset =
            s.toFinset ∪ insert (applyOp t x y)
              (ps.map fun p => applyOp t p.1 p.2).toFinset := by
          rw [List.toFinset_cons]
          ext z
          simp only [Finset.mem_union, Finset.mem_insert]
          tauto
        by_cases hP : (ps.map fun p => applyOp t p.1 p.2).toFinset ⊆
            (applyOp t x y :: s).toFinset
        · have hallmem : ∀ q ∈ ps, applyOp t q.1 q.2 ∈ applyOp t x y :: s := by
            intro q hq
            have : applyOp t q.1 q.2 ∈
                (ps.map fun p => applyOp t p.1 p.2).toFinset := by
              rw [List.mem_toFinset, List.mem_map]
              exact ⟨q, hq, rfl⟩
            exact List.mem_toFinset.mp (hP this)
          have hres := properPairs_all_mem t n ps (applyOp t x y :: s) true hallmem
          have hTsub : s.toFinset ∪ insert (applyOp t x y)
              (ps.map fun p => applyOp t p.1 p.2).toFinset =
              (applyOp t x y :: s).toFinset := by
            apply subset_antisymm
            · intro z hz
              rw [Finset.mem_union, Finset.mem_insert] at hz
              rw [List.toFinset_cons, Finset.mem_insert]
              rcases hz with hz | rfl | hz
              · exact Or.inr hz
              · exact Or.inl rfl
              · have hmem := hP hz
                rw [List.toFinset_cons, Finset.mem_insert] at hmem
                exact hmem
            · rw [List.toFinset_cons]
              intro z hz
              rw [Finset.mem_insert] at hz
              rcases hz with rfl | hz
              · exact Finset.mem_union_right _ (Finset.mem_insert_self _ _)
              · exact Finset.mem_union_left _ hz
          constructor
          · intro hcard
            exfalso
            rw [hTsub, List.toFinset_card_of_nodup hnd2] at hcard
            simp only [List.length_cons] at hcard
            omega
          · intro _
            exact ⟨applyOp t x y :: s, hres, hnd2, hTsub.symm⟩
        · have := ih (applyOp t x y :: s) true hnd2 hP
          rw [hTeq] at this
          exact this

end Quasi

namespace Quasi

/-! ## Characterization of the PROPER fixpoint loop -/

lemma properLoop_spec (t : Table) (hin : opInRange t) :
    ∀ (fuel : Nat) (s : List Nat), s.Nodup →
      s.toFinset ⊆ Finset.range t.length →
      t.length + 1 ≤ fuel + s.toFinset.card →
      properLoop t t.length fuel s =
        if closureFin t s.toFinset ≠ s.toFinset ∧
            t.length / 2 < (closureFin t s.toFinset).card
        then false
        else decide ((closureFin t s.toFinset).card < t.length) := by
  intro fuel
  induction fuel with
  | zero =>
    intro s hnd hsub hfuel
    exfalso
    have hle := Finset.card_le_card hsub
    rw [Finset.card_range] at hle
    omega
  | succ fuel ih =>
    intro s hnd hsub hfuel
    rw [properLoop]
    have hT : s.toFinset ∪ ((pairsList s).map fun p => applyOp t p.1 p.2).toFinset
        = stepProducts t s.toFinset := by
      rw [pairs_products_toFinset t s, stepProducts]
    by_cases hTS : stepProducts t s.toFinset ⊆ s.toFinset
    · have hfix : stepProducts t s.toFinset = s.toFinset :=
        subset_antisymm hTS (subset_stepProducts t s.toFinset)
      have hallmem : ∀ p ∈ pairsList s, applyOp t p.1 p.2 ∈ s := by
        intro p hp
        have h1 := (mem_pairsList s p).mp hp
        have h2 : applyOp t p.1 p.2 ∈ stepProducts t s.toFinset :=
          mem_stepProducts_of_mem t s.toFinset p.1 p.2
            (List.mem_toFinset.mpr h1.1) (List.mem_toFinset.mpr h1.2)
        rw [hfix] at h2
        exact List.mem_toFinset.mp h2
      rw [properPairs_all_mem t t.length (pairsList s) s false hallmem]
      have hclo : closureFin t s.toFinset = s.toFinset :=
        closureIter_of_fix t s.toFinset hfix (t.length + 1)
      rw [hclo, if_neg (by simp), List.toFinset_card_of_nodup hnd]
    · have hprods_not :
          ¬ ((pairsList s).map fun p => applyOp t p.1 p.2).toFinset ⊆ s.toFinset := by
        intro hsub2
        apply hTS
        rw [← hT]
        exact Finset.union_subset (Finset.Subset.refl _) hsub2
      have hstep_subL : stepProducts t s.toFinset ⊆ closureFin t s.toFinset := by
        have h1 : stepProducts t s.toFinset = closureIter t 1 s.toFinset := rfl
        rw [h1, closureFin]
        exact closureIter_mono_k t 1 (t.length + 1) (by omega) s.toFinset
      have hLneS : closureFin t s.toFinset ≠ s.toFinset := by
        intro heq
        apply hTS
        intro z hz
        have := hstep_subL hz
        rw [heq] at this
        exact this
      by_cases hbig : t.length / 2 < (stepProducts t s.toFinset).card
      · have hnone := (properPairs_not_subset t t.length (pairsList s) s false
          hnd hprods_not).1 (by rw [hT]; exact hbig)
        rw [hnone]
        have hLcard : t.length / 2 < (closureFin t s.toFinset).card := by
          have := Finset.card_le_card hstep_subL
          omega
        rw [if_pos ⟨hLneS, hLcard⟩]
      · push_neg at hbig
        obtain ⟨s2, hs2eq, hs2nd, hs2fin⟩ := (properPairs_not_subset t t.length
          (pairsList s) s false hnd hprods_not).2 (by rw [hT]; exact hbig)
        rw [hs2eq]
        change properLoop t t.length fuel s2 = _
        rw [hT] at hs2fin
        have hcard_lt : s.toFinset.card < s2.toFinset.card := by
          apply Finset.card_lt_card
          rw [Finset.ssubset_def, hs2fin]
          exact ⟨subset_stepProducts t s.toFinset, hTS⟩
        have hrange2 : s2.toFinset ⊆ Finset.range t.length := by
          rw [hs2fin]
          exact stepProducts_subset_range t hin s.toFinset hsub
        have ihres := ih s2 hs2nd hrange2 (by omega)
        rw [ihres, hs2fin, closureFin_stepProducts t hin s.toFinset hsub]
        have hScard_le : s.toFinset.card ≤ (stepProducts t s.toFinset).card :=
          Finset.card_le_card (subset_stepProducts t s.toFinset)
        by_cases hLbig : t.length / 2 < (closureFin t s.toFinset).card
        · have hLneT : closureFin t s.toFinset ≠ stepProducts t s.toFinset := by
            intro heq
            rw [heq] at hLbig
            omega
          rw [if_pos ⟨hLneT, hLbig⟩, if_pos ⟨hLneS, hLbig⟩]
        · rw [if_neg (fun h => hLbig h.2), if_neg (fun h => hLbig h.2)]

/-- The PROPER verifier computed on a duplicate-free in-range seed: it reports
false when the closure grows past `order / 2`, and otherwise compares the
closure size with the order. -/
lemma verifyProper_spec (t : Table) (hin : opInRange t) (s : List Nat)
    (hnd : s.Nodup) (hsub : s.toFinset ⊆ Finset.range t.length) :
    verifyProperSubquasigroup t s =
      if closureFin t s.toFinset ≠ s.toFinset ∧
          t.length / 2 < (closureFin t s.toFinset).card
      then false
      else decide ((closureFin t s.toFinset).card < t.length) := by
  unfold verifyProperSubquasigroup
  exact properLoop_spec t hin (t.length + 2) s hnd hsub (by omega)

end Quasi

namespace Quasi

/-! ## Orbit properties used by the soundness results -/

lemma orbitWalk_nodup (t : Table) :
    ∀ (fuel cur : Nat) (cyc vis : List Nat), cyc.Nodup →
      (orbitWalk t fuel cur cyc vis).1.Nodup := by
  intro fuel
  induction fuel with
  | zero => intro cur cyc vis h; exact h
  | succ fuel ih =>
    intro cur cyc vis h
    rw [orbitWalk]
    split
    · exact h
    · next hmem => exact ih _ _ _ (List.nodup_cons.mpr ⟨hmem, h⟩)

lemma orbitWalk_lt (t : Table) (hin : opInRange t) :
    ∀ (fuel cur : Nat) (cyc vis : List Nat), cur < t.length →
      (∀ z ∈ cyc, z < t.length) →
      ∀ z ∈ (orbitWalk t fuel cur cyc vis).1, z < t.length := by
  intro fuel
  induction fuel with
  | zero => intro cur cyc vis _ hcyc; exact hcyc
  | succ fuel ih =>
    intro cur cyc vis hcur hcyc
    rw [orbitWalk]
    split
    · exact hcyc
    · refine ih (applyOp t cur cur) (cur :: cyc) _ (hin cur hcur cur hcur) ?_
      intro z hz
      rcases List.mem_cons.mp hz with rfl | hz
      · exact hcur
      · exact hcyc z hz

lemma orbitWalk_length_pos (t : Table) (fuel cur : Nat) (cyc vis : List Nat)
    (hfuel : 1 ≤ fuel) (hmem : cur ∉ cyc) :
    cyc.length + 1 ≤ (orbitWalk t fuel cur cyc vis).1.length := by
  cases fuel with
  | zero => omega
  | succ fuel =>
    rw [orbitWalk, if_neg hmem]
    calc cyc.length + 1 = (cur :: cyc).length := by simp
      _ ≤ _ := orbitWalk_cycle_le t fuel _ _ _

/-- Whenever the main loop answers true, some examined orbit seed made the
selected verifier answer true; the seed is duplicate-free, nonempty and stays
below the order. -/
lemma hasSubLoop_true_exists (t : Table) (mode : Bool) (hin : opInRange t) :
    ∀ (rem start : Nat) (visited : List Nat), start + rem ≤ t.length →
      hasSubLoop t mode rem start visited = true →
      ∃ s : List Nat, s.Nodup ∧ 1 ≤ s.length ∧ (∀ z ∈ s, z < t.length) ∧
        (if mode then verifyProperSubquasigroup t s
         else verifyNonTrivialSubquasigroup t s) = true := by
  intro rem
  induction rem with
  | zero =>
    intro start visited _ htrue
    rw [hasSubLoop] at htrue
    cases htrue
  | succ rem ih =>
    intro start visited hle htrue
    rw [hasSubLoop] at htrue
    by_cases hmem : start ∈ visited
    · rw [if_pos hmem] at htrue
      exact ih (start + 1) visited (by omega) htrue
    · rw [if_neg hmem] at htrue
      by_cases hver : (if mode then verifyProperSubquasigroup t
            (orbitWalk t (t.length + 2) start [] visited).1
          else verifyNonTrivialSubquasigroup t
            (orbitWalk t (t.length + 2) start [] visited).1) = true
      · refine ⟨(orbitWalk t (t.length + 2) start [] visited).1,
          orbitWalk_nodup t _ _ _ _ List.nodup_nil, ?_, ?_, hver⟩
        · have h := orbitWalk_length_pos t (t.length + 2) start [] visited
            (by omega) (by simp)
          simpa using h
        · exact orbitWalk_lt t hin _ start [] visited (by omega) (by simp)
      · rw [if_neg hver] at htrue
        exact ih (start + 1) _ (by omega) htrue

/-! ## Entries of the cyclic-group table -/

lemma length_cyclic (n : Nat) : (generateCyclicGroupCayleyTable n).length = n := by
  simp [generateCyclicGroupCayleyTable]

lemma cyclic_row (n i : Nat) (hi : i < n) :
    (generateCyclicGroupCayleyTable n).getD i [] =
      (List.range n).map fun j => (((i + j) % n : Nat) : Int) := by
  rw [generateCyclicGroupCayleyTable, List.getD_eq_getElem?_getD,
    List.getElem?_map, List.getElem?_range hi]
  rfl

lemma tableEntry_cyclic (n i j : Nat) (hi : i < n) (hj : j < n) :
    tableEntry (generateCyclicGroupCayleyTable n) i j =
      (((i + j) % n : Nat) : Int) := by
  rw [tableEntry, cyclic_row n i hi, List.getD_eq_getElem?_getD,
    List.getElem?_map, List.getElem?_range hj]
  rfl

lemma applyOp_cyclic (n i j : Nat) (hi : i < n) (hj : j < n) :
    applyOp (generateCyclicGroupCayleyTable n) i j = (i + j) % n := by
  rw [applyOp, tableEntry_cyclic n i j hi hj]
  exact Int.toNat_natCast _

end Quasi

namespace Quasi

/-- One unfolding of the PROPER verifier on a singleton idempotent seed: the
single pair (x, x) produces x, nothing is inserted, and the final-size test
`1 < order` is returned. -/
lemma verifyProper_singleton (t : Table) (x : Nat) (h : applyOp t x x = x) :
    verifyProperSubquasigroup t [x] = decide (1 < t.length) := by
  unfold verifyProperSubquasigroup
  have h1 : properPairs t t.length (pairsList [x]) [x] false = some ([x], false) := by
    have hp : pairsList [x] = [(x, x)] := by simp [pairsList]
    rw [hp, properPairs, if_pos (by rw [h]; exact List.mem_singleton_self x)]
    rfl
  have h2 : properLoop t t.length (t.length + 2) [x] =
      match properPairs t t.length (pairsList [x]) [x] false with
      | none => false
      | some (closedSet2, true) => properLoop t t.length (t.length + 1) closedSet2
      | some (closedSet2, false) => decide (closedSet2.length < t.length) := rfl
  rw [h2, h1]
  rfl

/-- C10: for a quasigroup of order n ≥ 1 whose table entries all lie in
`[0, n)`, `hasSubquasigroups(NON_TRIVIAL)` returns false iff every element is
idempotent, i.e. `table[x][x] = x` for all x; in particular it returns true
whenever some diagonal entry differs from its index. -/
theorem claim_C10_nontrivial_iff_idempotent (t : Table)
    (_horder : 1 ≤ t.length)
    (hin : ∀ x, x < t.length → ∀ y, y < t.length →
      0 ≤ tableEntry t x y ∧ tableEntry t x y < (t.length : Int)) :
    (hasSubquasigroups t false = false ↔
      ∀ x, x < t.length → tableEntry t x x = (x : Int)) := by
  rw [hasSub_false_iff_idem]
  constructor
  · intro h x hx
    have hb := hin x hx x hx
    have hap := h x hx
    rw [applyOp] at hap
    omega
  · intro h x hx
    rw [applyOp, h x hx]
    exact Int.toNat_natCast x

/-- Witness for C10 at a concrete table with its hypotheses discharged. -/
theorem claim_C10_witness :
    hasSubquasigroups [[0, 1], [1, 0]] false = false ↔
      ∀ x, x < [[0, 1], [1, 0]].length →
        tableEntry [[0, 1], [1, 0]] x x = (x : Int) :=
  claim_C10_nontrivial_iff_idempotent [[0, 1], [1, 0]] (by decide) (by decide)

/-- C5: in PROPER mode on a duplicate-free seed of in-range elements, with all
table entries in `[0, order)`: (i) when the closure grows beyond the seed and
its final size exceeds `order / 2`, the orbit check stops and reports false;
(ii) when the closure stabilizes (final size ≤ `order / 2`, or no growth at
all), the seed succeeds iff the final closed size is strictly below the
order. -/
theorem claim_C5_proper_early_exit (t : Table) (seed : List Nat)
    (hnd : seed.Nodup) (hsub : seed.toFinset ⊆ Finset.range t.length)
    (hin : ∀ x, x < t.length → ∀ y, y < t.length →
      0 ≤ tableEntry t x y ∧ tableEntry t x y < (t.length : Int)) :
    (closureFin t seed.toFinset ≠ seed.toFinset ∧
        t.length / 2 < (closureFin t seed.toFinset).card →
      verifyProperSubquasigroup t seed = false) ∧
    ((closureFin t seed.toFinset).card ≤ t.length / 2 ∨
        closureFin t seed.toFinset = seed.toFinset →
      verifyProperSubquasigroup t seed =
        decide ((closureFin t seed.toFinset).card < t.length)) := by
  have hop : opInRange t := by
    intro x hx y hy
    have hb := hin x hx y hy
    rw [applyOp]
    omega
  have hspec := verifyProper_spec t hop seed hnd hsub
  constructor
  · intro hcond
    rw [hspec, if_pos hcond]
  · intro hcase
    rw [hspec]
    rcases hcase with hle | heq
    · exact if_neg fun h => absurd h.2 (Nat.not_lt.mpr hle)
    · exact if_neg fun h => h.1 heq

/-- Witness for C5: on the cyclic group of order 4 the seed [1] closes to the
whole group (size 4 > 4/2), so the PROPER verifier reports false. -/
theorem claim_C5_witness :
    verifyProperSubquasigroup (generateCyclicGroupCayleyTable 4) [1] = false :=
  (claim_C5_proper_early_exit (generateCyclicGroupCayleyTable 4) [1]
    (by decide) (by decide) (by decide)).1 ⟨by decide, by decide⟩

/-- C2 fails on the code: this Latin square of order 4 has the closed proper
subset {1, 2} (and the whole set is a closed subset with more than one
element), yet `hasSubquasigroups(PROPER)` answers false — the detector only
explores squaring-orbit seeds and both of its orbit closures blow past
order / 2. -/
theorem claim_C2_counterexample :
    isLatinSquare [[1, 0, 3, 2], [0, 2, 1, 3], [3, 1, 2, 0], [2, 3, 0, 1]] =
      true ∧
    (∀ x ∈ ({1, 2} : Finset Nat), ∀ y ∈ ({1, 2} : Finset Nat),
      applyOp [[1, 0, 3, 2], [0, 2, 1, 3], [3, 1, 2, 0], [2, 3, 0, 1]] x y ∈
        ({1, 2} : Finset Nat)) ∧
    ({1, 2} : Finset Nat).Nonempty ∧
    ({1, 2} : Finset Nat).card <
      [[1, 0, 3, 2], [0, 2, 1, 3], [3, 1, 2, 0], [2, 3, 0, 1]].length ∧
    hasSubquasigroups [[1, 0, 3, 2], [0, 2, 1, 3], [3, 1, 2, 0], [2, 3, 0, 1]]
      true = false := by
  refine ⟨by decide, by decide, ⟨1, by decide⟩, by decide, by decide⟩

/-- C2 (amended): on tables satisfying the Latin-square invariant the detector
is sound but not complete: PROPER = true only if some nonempty closed subset
has fewer elements than the whole, and NON_TRIVIAL = true only if some closed
subset has more than one element (the converse directions fail, see the
counterexample). -/
theorem claim_C2_amended_soundness (t : Table)
    (hlatin : isLatinSquare t = true) :
    (hasSubquasigroups t true = true →
      ∃ S : Finset Nat, S.Nonempty ∧
        (∀ x ∈ S, ∀ y ∈ S, applyOp t x y ∈ S) ∧ S.card < t.length) ∧
    (hasSubquasigroups t false = true →
      ∃ S : Finset Nat, (∀ x ∈ S, ∀ y ∈ S, applyOp t x y ∈ S) ∧ 1 < S.card) := by
  have hrange := ((isLatinSquare_iff_latinProp t).mp hlatin).1
  have hop : opInRange t := by
    intro x hx y hy
    have hb := hrange x hx y hy
    rw [applyOp]
    omega
  constructor
  · intro htrue
    obtain ⟨s, hnd, hlen, hlt, hver⟩ := hasSubLoop_true_exists t true hop
      t.length 0 [] (by omega) htrue
    rw [if_pos rfl] at hver
    have hsubF : s.toFinset ⊆ Finset.range t.length := by
      intro z hz
      rw [Finset.mem_range]
      exact hlt z (List.mem_toFinset.mp hz)
    have hspec := verifyProper_spec t hop s hnd hsubF
    rw [hver] at hspec
    by_cases hcond : closureFin t s.toFinset ≠ s.toFinset ∧
        t.length / 2 < (closureFin t s.toFinset).card
    · rw [if_pos hcond] at hspec
      cases hspec
    · rw [if_neg hcond] at hspec
      have hcard : (closureFin t s.toFinset).card < t.length :=
        of_decide_eq_true hspec.symm
      refine ⟨closureFin t s.toFinset, ?_, ?_, hcard⟩
      · obtain ⟨a, ha⟩ := List.exists_mem_of_length_pos (by omega : 0 < s.length)
        exact ⟨a, subset_closureFin t s.toFinset (List.mem_toFinset.mpr ha)⟩
      · intro x hx y hy
        have hmem := mem_stepProducts_of_mem t (closureFin t s.toFinset) x y hx hy
        rw [stepProducts_closureFin t hop s.toFinset hsubF] at hmem
        exact hmem
  · intro htrue
    obtain ⟨s, hnd, hlen, hlt, hver⟩ := hasSubLoop_true_exists t false hop
      t.length 0 [] (by omega) htrue
    rw [if_neg (by simp)] at hver
    rw [verifyNonTrivial_eq] at hver
    have hlen2 : 1 < s.length := of_decide_eq_true hver
    have hsubF : s.toFinset ⊆ Finset.range t.length := by
      intro z hz
      rw [Finset.mem_range]
      exact hlt z (List.mem_toFinset.mp hz)
    refine ⟨closureFin t s.toFinset, ?_, ?_⟩
    · intro x hx y hy
      have hmem := mem_stepProducts_of_mem t (closureFin t s.toFinset) x y hx hy
      rw [stepProducts_closureFin t hop s.toFinset hsubF] at hmem
      exact hmem
    · calc 1 < s.length := hlen2
        _ = s.toFinset.card := (List.toFinset_card_of_nodup hnd).symm
        _ ≤ (closureFin t s.toFinset).card :=
          Finset.card_le_card (subset_closureFin t s.toFinset)

/-- Witness for C2 (amended) at the order-2 cyclic table, where both detector
modes answer true. -/
theorem claim_C2_amended_soundness_witness :
    (∃ S : Finset Nat, S.Nonempty ∧
      (∀ x ∈ S, ∀ y ∈ S, applyOp [[0, 1], [1, 0]] x y ∈ S) ∧
      S.card < [[0, 1], [1, 0]].length) ∧
    (∃ S : Finset Nat,
      (∀ x ∈ S, ∀ y ∈ S, applyOp [[0, 1], [1, 0]] x y ∈ S) ∧ 1 < S.card) :=
  ⟨(claim_C2_amended_soundness [[0, 1], [1, 0]] (by decide)).1 (by decide),
   (claim_C2_amended_soundness [[0, 1], [1, 0]] (by decide)).2 (by decide)⟩

/-- C6 fails on the code: on the order-2 cyclic table the code reports a
proper subquasigroup ({0} is closed, with fewer elements than the whole) and
a non-trivial one ({1, 0} is closed with two elements); the claim expected
false for both. -/
theorem claim_C6_counterexample :
    hasSubquasigroups [[0, 1], [1, 0]] true = true ∧
    hasSubquasigroups [[0, 1], [1, 0]] false = true := by
  exact ⟨by decide, by decide⟩

/-- C6 (amended): on the concrete order-2 cyclic table both detector calls
answer true, matching the closed subsets {0} (proper) and {0, 1}
(non-trivial). -/
theorem claim_C6_amended :
    hasSubquasigroups [[0, 1], [1, 0]] true = true ∧
    hasSubquasigroups [[0, 1], [1, 0]] false = true ∧
    (∀ x ∈ ({0} : Finset Nat), ∀ y ∈ ({0} : Finset Nat),
      applyOp [[0, 1], [1, 0]] x y ∈ ({0} : Finset Nat)) ∧
    (∀ x ∈ ({0, 1} : Finset Nat), ∀ y ∈ ({0, 1} : Finset Nat),
      applyOp [[0, 1], [1, 0]] x y ∈ ({0, 1} : Finset Nat)) := by
  refine ⟨by decide, by decide, by decide, by decide⟩

/-- C3 fails on the code: 3 is prime, yet the detector reports
proper-exists = true on the cyclic group of order 3, because the singleton
{0} is closed and has fewer elements than the whole. -/
theorem claim_C3_counterexample :
    Nat.Prime 3 ∧
    hasSubquasigroups (generateCyclicGroupCayleyTable 3) true = true := by
  exact ⟨by decide, by decide⟩

end Quasi

namespace Quasi

/-- When 0 is idempotent and the order is at least 2, the very first orbit
examined by the PROPER detector is the singleton {0}, which is closed and
smaller than the whole, so the detector answers true. -/
lemma hasSubquasigroups_true_of_idem_zero (t : Table) (hlen : 2 ≤ t.length)
    (h00 : applyOp t 0 0 = 0) : hasSubquasigroups t true = true := by
  unfold hasSubquasigroups
  obtain ⟨k, hk⟩ : ∃ k, t.length = k + 1 := ⟨t.length - 1, by omega⟩
  rw [hk, hasSubLoop, if_neg (List.not_mem_nil 0),
    orbitWalk_self t t.length 0 [] h00]
  have hvp : verifyProperSubquasigroup t ([0], sinsert 0 ([] : List Nat)).1 =
      true := by
    show verifyProperSubquasigroup t [0] = true
    rw [verifyProper_singleton t 0 h00]
    rw [decide_eq_true_eq]
    omega
  rw [if_pos (rfl : true = true), hvp, if_pos (rfl : true = true)]

/-- C3 (amended): on the cyclic-group table of order n ≥ 1 the detector
reports proper-exists = true for every n > 1 — composite and prime alike,
since the singleton {0} is a closed subset with fewer elements than the
whole — and false for n = 1; non-trivial-exists equals proper-exists for
every such n. -/
theorem claim_C3_amended_cyclic (n : Nat) (hn : 1 ≤ n) :
    hasSubquasigroups (generateCyclicGroupCayleyTable n) true = decide (1 < n) ∧
    hasSubquasigroups (generateCyclicGroupCayleyTable n) false =
      decide (1 < n) := by
  match n, hn with
  | 1, _ => exact ⟨by decide, by decide⟩
  | 2, _ => exact ⟨by decide, by decide⟩
  | (m + 3), _ =>
    have hlen : (generateCyclicGroupCayleyTable (m + 3)).length = m + 3 :=
      length_cyclic (m + 3)
    have h00 : applyOp (generateCyclicGroupCayleyTable (m + 3)) 0 0 = 0 := by
      rw [applyOp_cyclic (m + 3) 0 0 (by omega) (by omega)]
      simp
    constructor
    · rw [hasSubquasigroups_true_of_idem_zero
        (generateCyclicGroupCayleyTable (m + 3)) (by omega) h00]
      exact (decide_eq_true (by omega : 1 < m + 3)).symm
    · have hne : applyOp (generateCyclicGroupCayleyTable (m + 3)) 1 1 ≠ 1 := by
        rw [applyOp_cyclic (m + 3) 1 1 (by omega) (by omega),
          Nat.mod_eq_of_lt (by omega : 1 + 1 < m + 3)]
        omega
      cases hsub : hasSubquasigroups (generateCyclicGroupCayleyTable (m + 3)) false
      · exfalso
        have hidem := (hasSub_false_iff_idem
          (generateCyclicGroupCayleyTable (m + 3))).mp hsub 1 (by omega)
        exact hne hidem
      · exact (decide_eq_true (by omega : 1 < m + 3)).symm

/-- Witness for C3 (amended) at the composite order 4 and the prime order 5. -/
theorem claim_C3_amended_cyclic_witness :
    hasSubquasigroups (generateCyclicGroupCayleyTable 4) true = true ∧
    hasSubquasigroups (generateCyclicGroupCayleyTable 5) true = true := by
  constructor
  · exact ((claim_C3_amended_cyclic 4 (by decide)).1).trans (by decide)
  · exact ((claim_C3_amended_cyclic 5 (by decide)).1).trans (by decide)

end Quasi

namespace Quasi

/-! ## The sequential-replacement-graph generator
(`SequentialReplacementGraphGenerator`), embedded as a small-step machine.
The nested loops of `generate` / `generateRow` / `makeElementAvailable` are
defunctionalized into one step function on an explicit state; randomness is an
oracle giving, at each `selectRandomElement` call, an index into the
candidate list. -/

/-- Embedding of `selectRandomElement`: the oracle value selects an index into
the candidate list (the C++ set's iteration order is unspecified; here the
list order is canonical and every element can be selected). Only called on
nonempty lists. -/
def pick (cands : List Nat) (r : Nat) : Nat :=
  cands.getD (r % cands.length) 0

/-- Phase of the machine: filling the current row left to right (the outer
loop of `generateRow`), or inside a `makeElementAvailable` displacement chain.
The replacement graph itself needs no state: after
`eraseInitialElementFromGraph` it is the fixed map
`column ↦ initialAvailable[column].erase initialElement`. -/
inductive GenPhase where
  | fill : GenPhase
  | chain (visitedPath : List Nat) (oldIndex oldElement initialElement : Nat) :
      GenPhase
deriving Repr, DecidableEq

/-- Full generator state: completed rows, live column availability
(`availableInColumns`), the start-of-row snapshot (`initialAvailable`), the
row under construction, its availability set (`availableInRow`), the phase,
and the oracle position. -/
structure GenState where
  order : Nat
  rows : List (List Nat)
  cols : List (List Nat)
  initCols : List (List Nat)
  row : List Nat
  availRow : List Nat
  phase : GenPhase
  pos : Nat
deriving Repr, DecidableEq

/-- Result of one machine step. -/
inductive StepResult where
  | more (st : GenState) : StepResult
  | done (table : List (List Nat)) : StepResult
  | fail : StepResult
deriving Repr, DecidableEq

/-- One step of the generator. `fail` models the undefined C++ behavior of
selecting from an empty set; the claims' runs never reach it. The two break
tests of `makeElementAvailable` collapse into the single test
`row.length ≤ newIndex`, because the first one also requires it. -/
def genStep (oracle : Nat → Nat) (st : GenState) : StepResult :=
  if st.rows.length = st.order then .done st.rows
  else
    match st.phase with
    | .fill =>
      if st.row.length = st.order then
        .more { st with
          rows := st.rows ++ [st.row],
          row := [],
          availRow := List.range st.order,
          initCols := st.cols }
      else
        if (st.cols.getD st.row.length []).filter (· ∈ st.availRow) = [] then
          if st.cols.getD st.row.length [] = [] then .fail
          else
            .more { st with
              phase := .chain []
                (st.row.indexOf (pick (st.cols.getD st.row.length [])
                  (oracle st.pos)))
                (pick (st.cols.getD st.row.length []) (oracle st.pos))
                (pick (st.cols.getD st.row.length []) (oracle st.pos)),
              pos := st.pos + 1 }
        else
          .more { st with
            cols := st.cols.set st.row.length
              ((st.cols.getD st.row.length []).erase
                (pick ((st.cols.getD st.row.length []).filter (· ∈ st.availRow))
                  (oracle st.pos))),
            availRow := st.availRow.erase
              (pick ((st.cols.getD st.row.length []).filter (· ∈ st.availRow))
                (oracle st.pos)),
            row := st.row ++ [pick ((st.cols.getD st.row.length []).filter
              (· ∈ st.availRow)) (oracle st.pos)],
            pos := st.pos + 1 }
    | .chain visitedPath oldIndex oldElement initialElement =>
      let choices := (st.initCols.getD oldIndex []).erase initialElement
      let avail0 := choices.filter (· ∉ visitedPath)
      let visited1 := if avail0 = [] then [] else visitedPath
      let availableChoices := if avail0 = [] then choices else avail0
      if availableChoices = [] then .fail
      else
        let newElement := pick availableChoices (oracle st.pos)
        let newIndex := st.row.indexOf newElement
        let row2 := st.row.set oldIndex newElement
        let availRow2 :=
          (if oldElement ∈ row2 then st.availRow
           else sinsert oldElement st.availRow).erase newElement
        let cols2 := st.cols.set oldIndex
          ((sinsert oldElement (st.cols.getD oldIndex [])).erase newElement)
        if st.row.length ≤ newIndex then
          .more { st with
            row := row2, availRow := availRow2, cols := cols2,
            phase := .fill, pos := st.pos + 1 }
        else
          .more { st with
            row := row2, availRow := availRow2, cols := cols2,
            phase := .chain (sinsert newElement visited1) newIndex newElement
              initialElement,
            pos := st.pos + 1 }

/-- The initial state for a given order (the C++ constructor). -/
def initState (order : Nat) : GenState :=
  { order := order,
    rows := [],
    cols := List.replicate order (List.range order),
    initCols := List.replicate order (List.range order),
    row := [],
    availRow := List.range order,
    phase := .fill,
    pos := 0 }

/-- Run the machine for at most `fuel` steps. -/
def genRun (oracle : Nat → Nat) : Nat → GenState → Option (List (List Nat))
  | 0, _ => none
  | fuel + 1, st =>
    match genStep oracle st with
    | .done table => some table
    | .fail => none
    | .more st2 => genRun oracle fuel st2

/-- Embedding of `generateSequentialReplacementGraphCayleyTable`: run the
machine from the initial state; the Nat-valued rows become the Int-valued
Cayley table. -/
def generateSequentialReplacementGraphCayleyTable (oracle : Nat → Nat)
    (order fuel : Nat) : Option Table :=
  (genRun oracle fuel (initState order)).map fun rows =>
    rows.map fun r => r.map fun x : Nat => (x : Int)

end Quasi

namespace Quasi

/-! ## A divergent run of the displacement repair (order 6)

With the previous rows `[0,1,2,3,4,5]`, `[5,4,3,2,1,0]`, `[2,5,1,0,3,4]` and
suitable random choices, the fourth row reaches a conflict whose
`makeElementAvailable` chain revisits its own state every 8 iterations: the
`visitedPath` reset lets the chain displace the same elements forever. -/

/-- The choice indices that steer the generator into the cycle. -/
def badPrefix : List Nat :=
  [0, 0, 0, 0, 0, 0, 4, 3, 2, 2, 1, 0, 1, 2, 1, 0, 0, 0, 0, 1, 0, 1, 0, 1,
   0, 0, 0, 1, 1]

/-- The eight choice indices repeated forever inside the chain. -/
def badCycle : List Nat := [0, 1, 0, 0, 1, 0, 0, 1]

/-- An adversarial oracle: the steering prefix followed by the period-8
cycle. -/
def badOracle (p : Nat) : Nat :=
  if p < 29 then badPrefix.getD p 0 else badCycle.getD ((p - 29) % 8) 0

/-- Iterate the machine a fixed number of steps (`none` on done or fail). -/
def stepN (oracle : Nat → Nat) : Nat → GenState → Option GenState
  | 0, st => some st
  | k + 1, st =>
    match genStep oracle st with
    | .more st2 => stepN oracle k st2
    | _ => none

lemma genRun_none_of_stepN (oracle : Nat → Nat) :
    ∀ (k : Nat) (st st2 : GenState), stepN oracle k st = some st2 →
      (∀ f, genRun oracle f st2 = none) → ∀ f, genRun oracle f st = none := by
  intro k
  induction k with
  | zero =>
    intro st st2 h hrec f
    obtain rfl : st = st2 := by
      rw [stepN] at h
      injection h
    exact hrec f
  | succ k ih =>
    intro st st2 h hrec f
    rw [stepN] at h
    cases hstep : genStep oracle st with
    | more st1 =>
      rw [hstep] at h
      cases f with
      | zero => rfl
      | succ f =>
        rw [genRun, hstep]
        exact ih st1 st2 h hrec f
    | done tb => rw [hstep] at h; cases h
    | fail => rw [hstep] at h; cases h

/-- State 0 of the period-8 displacement cycle (oracle position is the
parameter). -/
def cycState0 (p : Nat) : GenState :=
  { order := 6,
    rows := [[0, 1, 2, 3, 4, 5], [5, 4, 3, 2, 1, 0], [2, 5, 1, 0, 3, 4]],
    cols := [[1, 4], [2, 0], [0, 4], [5, 4], [2, 5], [1, 2, 3]],
    initCols := [[1, 3, 4], [0, 2, 3], [0, 4, 5], [1, 4, 5], [0, 2, 5],
      [1, 2, 3]],
    row := [3, 3, 5, 1, 0],
    availRow := [2, 4],
    phase := .chain [3] 0 3 2,
    pos := p }

/-- State 1 of the cycle. -/
def cycState1 (p : Nat) : GenState :=
  { order := 6,
    rows := [[0, 1, 2, 3, 4, 5], [5, 4, 3, 2, 1, 0], [2, 5, 1, 0, 3, 4]],
    cols := [[3, 4], [2, 0], [0, 4], [5, 4], [2, 5], [1, 2, 3]],
    initCols := [[1, 3, 4], [0, 2, 3], [0, 4, 5], [1, 4, 5], [0, 2, 5],
      [1, 2, 3]],
    row := [1, 3, 5, 1, 0],
    availRow := [2, 4],
    phase := .chain [1, 3] 3 1 2,
    pos := p }

/-- State 2 of the cycle. -/
def cycState2 (p : Nat) : GenState :=
  { order := 6,
    rows := [[0, 1, 2, 3, 4, 5], [5, 4, 3, 2, 1, 0], [2, 5, 1, 0, 3, 4]],
    cols := [[3, 4], [2, 0], [0, 4], [1, 4], [2, 5], [1, 2, 3]],
    initCols := [[1, 3, 4], [0, 2, 3], [0, 4, 5], [1, 4, 5], [0, 2, 5],
      [1, 2, 3]],
    row := [1, 3, 5, 5, 0],
    availRow := [2, 4],
    phase := .chain [5, 1, 3] 2 5 2,
    pos := p }

/-- State 3 of the cycle. -/
def cycState3 (p : Nat) : GenState :=
  { order := 6,
    rows := [[0, 1, 2, 3, 4, 5], [5, 4, 3, 2, 1, 0], [2, 5, 1, 0, 3, 4]],
    cols := [[3, 4], [2, 0], [5, 4], [1, 4], [2, 5], [1, 2, 3]],
    initCols := [[1, 3, 4], [0, 2, 3], [0, 4, 5], [1, 4, 5], [0, 2, 5],
      [1, 2, 3]],
    row := [1, 3, 0, 5, 0],
    availRow := [2, 4],
    phase := .chain [0, 5, 1, 3] 4 0 2,
    pos := p }

/-- State 4 of the cycle (right after a `visitedPath` reset). -/
def cycState4 (p : Nat) : GenState :=
  { order := 6,
    rows := [[0, 1, 2, 3, 4, 5], [5, 4, 3, 2, 1, 0], [2, 5, 1, 0, 3, 4]],
    cols := [[3, 4], [2, 0], [5, 4], [1, 4], [2, 5], [1, 2, 3]],
    initCols := [[1, 3, 4], [0, 2, 3], [0, 4, 5], [1, 4, 5], [0, 2, 5],
      [1, 2, 3]],
    row := [1, 3, 0, 5, 0],
    availRow := [2, 4],
    phase := .chain [0] 2 0 2,
    pos := p }

/-- State 5 of the cycle. -/
def cycState5 (p : Nat) : GenState :=
  { order := 6,
    rows := [[0, 1, 2, 3, 4, 5], [5, 4, 3, 2, 1, 0], [2, 5, 1, 0, 3, 4]],
    cols := [[3, 4], [2, 0], [0, 4], [1, 4], [2, 5], [1, 2, 3]],
    initCols := [[1, 3, 4], [0, 2, 3], [0, 4, 5], [1, 4, 5], [0, 2, 5],
      [1, 2, 3]],
    row := [1, 3, 5, 5, 0],
    availRow := [2, 4],
    phase := .chain [5, 0] 3 5 2,
    pos := p }

/-- State 6 of the cycle. -/
def cycState6 (p : Nat) : GenState :=
  { order := 6,
    rows := [[0, 1, 2, 3, 4, 5], [5, 4, 3, 2, 1, 0], [2, 5, 1, 0, 3, 4]],
    cols := [[3, 4], [2, 0], [0, 4], [5, 4], [2, 5], [1, 2, 3]],
    initCols := [[1, 3, 4], [0, 2, 3], [0, 4, 5], [1, 4, 5], [0, 2, 5],
      [1, 2, 3]],
    row := [1, 3, 5, 1, 0],
    availRow := [2, 4],
    phase := .chain [1, 5, 0] 0 1 2,
    pos := p }

/-- State 7 of the cycle; its step returns to state 0. -/
def cycState7 (p : Nat) : GenState :=
  { order := 6,
    rows := [[0, 1, 2, 3, 4, 5], [5, 4, 3, 2, 1, 0], [2, 5, 1, 0, 3, 4]],
    cols := [[1, 4], [2, 0], [0, 4], [5, 4], [2, 5], [1, 2, 3]],
    initCols := [[1, 3, 4], [0, 2, 3], [0, 4, 5], [1, 4, 5], [0, 2, 5],
      [1, 2, 3]],
    row := [3, 3, 5, 1, 0],
    availRow := [2, 4],
    phase := .chain [3, 1, 5, 0] 1 3 2,
    pos := p }

lemma badOracle_tail (k j : Nat) (hj : j < 8) :
    badOracle (29 + 8 * k + j) = badCycle.getD j 0 := by
  unfold badOracle
  rw [if_neg (by omega)]
  have h1 : 29 + 8 * k + j - 29 = 8 * k + j := by omega
  rw [h1, Nat.mul_add_mod 8 k j, Nat.mod_eq_of_lt hj]

lemma genStep_const (oracle : Nat → Nat) (st : GenState) :
    genStep oracle st = genStep (fun _ => oracle st.pos) st := rfl

lemma cycStep0 (k : Nat) :
    genStep badOracle (cycState0 (29 + 8 * k + 0)) =
      .more (cycState1 (29 + 8 * k + 1)) := by
  rw [genStep_const]
  simp only [cycState0, badOracle_tail k 0 (by omega)]
  rfl

lemma cycStep1 (k : Nat) :
    genStep badOracle (cycState1 (29 + 8 * k + 1)) =
      .more (cycState2 (29 + 8 * k + 2)) := by
  rw [genStep_const]
  simp only [cycState1, badOracle_tail k 1 (by omega)]
  rfl

lemma cycStep2 (k : Nat) :
    genStep badOracle (cycState2 (29 + 8 * k + 2)) =
      .more (cycState3 (29 + 8 * k + 3)) := by
  rw [genStep_const]
  simp only [cycState2, badOracle_tail k 2 (by omega)]
  rfl

lemma cycStep3 (k : Nat) :
    genStep badOracle (cycState3 (29 + 8 * k + 3)) =
      .more (cycState4 (29 + 8 * k + 4)) := by
  rw [genStep_const]
  simp only [cycState3, badOracle_tail k 3 (by omega)]
  rfl

lemma cycStep4 (k : Nat) :
    genStep badOracle (cycState4 (29 + 8 * k + 4)) =
      .more (cycState5 (29 + 8 * k + 5)) := by
  rw [genStep_const]
  simp only [cycState4, badOracle_tail k 4 (by omega)]
  rfl

lemma cycStep5 (k : Nat) :
    genStep badOracle (cycState5 (29 + 8 * k + 5)) =
      .more (cycState6 (29 + 8 * k + 6)) := by
  rw [genStep_const]
  simp only [cycState5, badOracle_tail k 5 (by omega)]
  rfl

lemma cycStep6 (k : Nat) :
    genStep badOracle (cycState6 (29 + 8 * k + 6)) =
      .more (cycState7 (29 + 8 * k + 7)) := by
  rw [genStep_const]
  simp only [cycState6, badOracle_tail k 6 (by omega)]
  rfl

lemma cycStep7 (k : Nat) :
    genStep badOracle (cycState7 (29 + 8 * k + 7)) =
      .more (cycState0 (29 + 8 * (k + 1) + 0)) := by
  rw [genStep_const]
  simp only [cycState7, badOracle_tail k 7 (by omega)]
  rfl

/-- Once inside the cycle, no fuel reaches done or fail. -/
lemma genRun_cycle_none : ∀ (fuel k : Nat),
    genRun badOracle fuel (cycState0 (29 + 8 * k + 0)) = none ∧
    genRun badOracle fuel (cycState1 (29 + 8 * k + 1)) = none ∧
    genRun badOracle fuel (cycState2 (29 + 8 * k + 2)) = none ∧
    genRun badOracle fuel (cycState3 (29 + 8 * k + 3)) = none ∧
    genRun badOracle fuel (cycState4 (29 + 8 * k + 4)) = none ∧
    genRun badOracle fuel (cycState5 (29 + 8 * k + 5)) = none ∧
    genRun badOracle fuel (cycState6 (29 + 8 * k + 6)) = none ∧
    genRun badOracle fuel (cycState7 (29 + 8 * k + 7)) = none := by
  intro fuel
  induction fuel with
  | zero => intro k; exact ⟨rfl, rfl, rfl, rfl, rfl, rfl, rfl, rfl⟩
  | succ fuel ih =>
    intro k
    refine ⟨?_, ?_, ?_, ?_, ?_, ?_, ?_, ?_⟩
    · rw [genRun, cycStep0 k]
      exact (ih k).2.1
    · rw [genRun, cycStep1 k]
      exact (ih k).2.2.1
    · rw [genRun, cycStep2 k]
      exact (ih k).2.2.2.1
    · rw [genRun, cycStep3 k]
      exact (ih k).2.2.2.2.1
    · rw [genRun, cycStep4 k]
      exact (ih k).2.2.2.2.2.1
    · rw [genRun, cycStep5 k]
      exact (ih k).2.2.2.2.2.2.1
    · rw [genRun, cycStep6 k]
      exact (ih k).2.2.2.2.2.2.2
    · rw [genRun, cycStep7 k]
      exact (ih (k + 1)).1

/-- The steering prefix reaches cycle state 0 after 32 machine steps. -/
lemma badOracle_entry : stepN badOracle 32 (initState 6) = some (cycState0 29) := by
  decide

/-- Divergence of the generator on an oracle and order: no fuel makes the run
return a table. -/
def DivergesOn (oracle : Nat → Nat) (order : Nat) : Prop :=
  ∀ fuel, generateSequentialReplacementGraphCayleyTable oracle order fuel = none

/-- C4 fails on the code: with the adversarial choice sequence `badOracle`,
row generation at order 6 never completes — the displacement-repair loop of
`makeElementAvailable` revisits the same state every 8 iterations, because the
`visitedPath` reset allows previously tried elements again. -/
theorem claim_C4_counterexample : DivergesOn badOracle 6 := by
  intro fuel
  have hnone : genRun badOracle fuel (initState 6) = none :=
    genRun_none_of_stepN badOracle 32 (initState 6) (cycState0 29)
      badOracle_entry (fun f => (genRun_cycle_none f 0).1) fuel
  unfold generateSequentialReplacementGraphCayleyTable
  rw [hnone]
  rfl

/-- C4 (amended): the displacement repair and row generation complete for
suitable random choices — with the all-zero choice sequence, order 6 finishes
in 58 machine steps and yields a Latin square — but not for every choice
sequence (see the divergence counterexample). -/
theorem claim_C4_amended_completion :
    generateSequentialReplacementGraphCayleyTable (fun _ => 0) 6 58 =
      some [[0, 1, 2, 3, 4, 5], [1, 0, 3, 2, 5, 4], [2, 3, 4, 5, 1, 0],
        [3, 2, 5, 4, 0, 1], [4, 5, 0, 1, 2, 3], [5, 4, 1, 0, 3, 2]] ∧
    isLatinSquare [[0, 1, 2, 3, 4, 5], [1, 0, 3, 2, 5, 4], [2, 3, 4, 5, 1, 0],
        [3, 2, 5, 4, 0, 1], [4, 5, 0, 1, 2, 3], [5, 4, 1, 0, 3, 2]] = true := by
  exact ⟨by decide, by decide⟩

end Quasi

namespace Quasi

/-! ## Invariant of the generator machine

To settle the claim that a table returned by the generator passes the
Latin-square validator, each machine step is shown to preserve a state
invariant strong enough to force the finished rows into a Latin square. -/

/-- The entries already committed in column `c`. -/
def columnEntries (rows : List (List Nat)) (c : Nat) : List Nat :=
  rows.map fun r => r.getD c 0

lemma columnEntries_append (rows : List (List Nat)) (row : List Nat) (c : Nat) :
    columnEntries (rows ++ [row]) c = columnEntries rows c ++ [row.getD c 0] := by
  unfold columnEntries
  rw [List.map_append]
  rfl

lemma pick_mem (cands : List Nat) (r : Nat) (h : cands ≠ []) :
    pick cands r ∈ cands := by
  have hlen : 0 < cands.length := List.length_pos.mpr h
  have hlt : r % cands.length < cands.length := Nat.mod_lt r hlen
  rw [pick, List.getD_eq_getElem cands 0 hlt]
  exact List.getElem_mem hlt

lemma sinsert_nodup (x : Nat) (s : List Nat) (h : s.Nodup) :
    (sinsert x s).Nodup := by
  unfold sinsert
  split
  · exact h
  · rw [List.nodup_cons]
    exact ⟨by assumption, h⟩

lemma getD_set_self (l : List Nat) (i a : Nat) (h : i < l.length) :
    (l.set i a).getD i 0 = a := by
  rw [List.getD_eq_getElem?_getD, List.getElem?_set_self h]
  rfl

lemma getD_set_ne (l : List Nat) (i j a : Nat) (h : i ≠ j) :
    (l.set i a).getD j 0 = l.getD j 0 := by
  rw [List.getD_eq_getElem?_getD, List.getElem?_set_ne h,
    ← List.getD_eq_getElem?_getD]

lemma getDl_set_self (l : List (List Nat)) (i : Nat) (a : List Nat)
    (h : i < l.length) : (l.set i a).getD i [] = a := by
  rw [List.getD_eq_getElem?_getD, List.getElem?_set_self h]
  rfl

lemma getDl_set_ne (l : List (List Nat)) (i j : Nat) (a : List Nat)
    (h : i ≠ j) : (l.set i a).getD j [] = l.getD j [] := by
  rw [List.getD_eq_getElem?_getD, List.getElem?_set_ne h,
    ← List.getD_eq_getElem?_getD]

lemma getD_append_left (l : List Nat) (x : Nat) (i : Nat) (h : i < l.length) :
    (l ++ [x]).getD i 0 = l.getD i 0 := by
  rw [List.getD_eq_getElem?_getD, List.getElem?_append_left h,
    ← List.getD_eq_getElem?_getD]

lemma getD_append_last (l : List Nat) (x : Nat) :
    (l ++ [x]).getD l.length 0 = x := by
  rw [List.getD_eq_getElem?_getD, List.getElem?_append_right le_rfl]
  simp

lemma getD_replicate_list (n j : Nat) (x : List Nat) (h : j < n) :
    (List.replicate n x).getD j [] = x := by
  rw [List.getD_eq_getElem?_getD, List.getElem?_replicate, if_pos h]
  rfl

/-- Additive form of the effect of `List.set` on counts. -/
lemma count_set_add (l : List Nat) (i : Nat) (h : i < l.length) (a x : Nat) :
    (l.set i a).count x + (if l.getD i 0 = x then 1 else 0) =
      l.count x + (if a = x then 1 else 0) := by
  rw [List.getD_eq_getElem l 0 h, List.count_set a x l i h]
  simp only [beq_iff_eq]
  by_cases h1 : l[i] = x
  · have hmem : x ∈ l := h1 ▸ List.getElem_mem h
    have hpos : 0 < l.count x := List.count_pos_iff.mpr hmem
    by_cases h2 : a = x <;> simp only [h1, h2, if_pos, if_neg, if_true,
      if_false] <;> omega
  · by_cases h2 : a = x <;> simp [h1, h2]

lemma mem_iff_count_pos (l : List Nat) (x : Nat) : x ∈ l ↔ 0 < l.count x :=
  List.count_pos_iff.symm

lemma getD_mem (l : List Nat) (i : Nat) (h : i < l.length) : l.getD i 0 ∈ l := by
  rw [List.getD_eq_getElem l 0 h]
  exact List.getElem_mem h

lemma indexOf_getD (l : List Nat) (x : Nat) (h : l.indexOf x < l.length) :
    l.getD (l.indexOf x) 0 = x := by
  rw [List.getD_eq_getElem l 0 h]
  exact List.get_eq_getElem l ⟨l.indexOf x, h⟩ ▸ List.indexOf_get h

lemma indexOf_lt_of_mem (l : List Nat) (x : Nat) (h : x ∈ l) :
    l.indexOf x < l.length := List.indexOf_lt_length.mpr h

lemma not_mem_of_length_le_indexOf (l : List Nat) (x : Nat)
    (h : l.length ≤ l.indexOf x) : x ∉ l := by
  intro hmem
  exact absurd (indexOf_lt_of_mem l x hmem) (by omega)

end Quasi

namespace Quasi

/-- Count discipline of the row under repair: the displaced element occurs at
most twice (its original slot plus the slot just overwritten), everything else
at most once. -/
def RowCounts (row : List Nat) (e : Nat) : Prop :=
  row.count e ≤ 2 ∧ ∀ x, x ≠ e → row.count x ≤ 1

/-- The phase-dependent part of the machine invariant: outside a repair chain
the row has no duplicates; inside one, `oldIndex` points at `oldElement` and
the row obeys the repair count discipline. -/
def PhaseInv (st : GenState) : Prop :=
  (st.phase = .fill → st.row.Nodup) ∧
  ∀ v oldIndex oldElement initialElement,
    st.phase = .chain v oldIndex oldElement initialElement →
      oldIndex < st.row.length ∧ st.row.getD oldIndex 0 = oldElement ∧
      RowCounts st.row oldElement

/-- The machine invariant: shape facts, exact membership descriptions of the
availability sets, and the phase discipline. -/
structure GenInv (st : GenState) : Prop where
  cols_len : st.cols.length = st.order
  initCols_len : st.initCols.length = st.order
  rows_le : st.rows.length ≤ st.order
  rows_shape : ∀ r ∈ st.rows, r.length = st.order
  rows_nodup : ∀ r ∈ st.rows, r.Nodup
  rows_lt : ∀ r ∈ st.rows, ∀ x ∈ r, x < st.order
  colEnt_nodup : ∀ c, c < st.order → (columnEntries st.rows c).Nodup
  initCols_iff : ∀ c, c < st.order → ∀ z,
    z ∈ st.initCols.getD c [] ↔ z < st.order ∧ z ∉ columnEntries st.rows c
  cols_iff : ∀ c, c < st.order → ∀ z,
    z ∈ st.cols.getD c [] ↔ z ∈ st.initCols.getD c [] ∧
      ¬(c < st.row.length ∧ st.row.getD c 0 = z)
  row_len : st.row.length ≤ st.order
  row_lt : ∀ x ∈ st.row, x < st.order
  availRow_iff : ∀ z, z ∈ st.availRow ↔ z < st.order ∧ z ∉ st.row
  availRow_nodup : st.availRow.Nodup
  cols_nodup : ∀ c, (st.cols.getD c []).Nodup
  initCols_nodup : ∀ c, (st.initCols.getD c []).Nodup
  placed : ∀ c, c < st.row.length → st.row.getD c 0 ∈ st.initCols.getD c []
  phase_inv : PhaseInv st

lemma getD_nil (c : Nat) : ([] : List (List Nat)).getD c [] = [] := by
  cases c <;> rfl

lemma genInv_init (order : Nat) : GenInv (initState order) := by
  refine ⟨?_, ?_, ?_, ?_, ?_, ?_, ?_, ?_, ?_, ?_, ?_, ?_, ?_, ?_, ?_, ?_, ?_⟩
  · exact List.length_replicate order _
  · exact List.length_replicate order _
  · exact Nat.zero_le order
  · intro r hr; cases hr
  · intro r hr; cases hr
  · intro r hr; cases hr
  · intro c _; exact List.nodup_nil
  · intro c hc z
    show z ∈ (List.replicate order (List.range order)).getD c [] ↔ _
    rw [getD_replicate_list order c _ hc, List.mem_range]
    constructor
    · intro h
      exact ⟨h, fun hmem => List.not_mem_nil z hmem⟩
    · intro h
      exact h.1
  · intro c hc z
    constructor
    · intro h
      refine ⟨h, ?_⟩
      rintro ⟨h2, -⟩
      exact absurd h2 (Nat.not_lt_zero c)
    · intro h
      exact h.1
  · exact Nat.zero_le order
  · intro x hx; cases hx
  · intro z
    show z ∈ List.range order ↔ _
    rw [List.mem_range]
    constructor
    · intro h
      exact ⟨h, fun hmem => List.not_mem_nil z hmem⟩
    · intro h
      exact h.1
  · exact List.nodup_range order
  · intro c
    show ((List.replicate order (List.range order)).getD c []).Nodup
    by_cases hc : c < order
    · rw [getD_replicate_list order c _ hc]; exact List.nodup_range order
    · rw [List.getD_eq_getElem?_getD, List.getElem?_replicate, if_neg hc]
      exact List.nodup_nil
  · intro c
    show ((List.replicate order (List.range order)).getD c []).Nodup
    by_cases hc : c < order
    · rw [getD_replicate_list order c _ hc]; exact List.nodup_range order
    · rw [List.getD_eq_getElem?_getD, List.getElem?_replicate, if_neg hc]
      exact List.nodup_nil
  · intro c hc; cases hc
  · constructor
    · intro _
      exact List.nodup_nil
    · intro v oi oe ie hph
      exact GenPhase.noConfusion hph

end Quasi

namespace Quasi

lemma nodup_append_singleton (l : List Nat) (x : Nat) (h : l.Nodup)
    (hx : x ∉ l) : (l ++ [x]).Nodup := by
  rw [List.nodup_append]
  refine ⟨h, List.nodup_cons.mpr ⟨List.not_mem_nil x, List.nodup_nil⟩, ?_⟩
  intro a ha hb
  rw [List.mem_singleton] at hb
  subst hb
  exact hx ha

/-- Invariant preservation: committing a finished row (the
`rows.push_back(row)` branch of `generateRow`). -/
lemma inv_commit (st : GenState) (h : GenInv st)
    (hne : st.rows.length ≠ st.order) (hrow : st.row.length = st.order)
    (hph : st.phase = .fill) :
    GenInv { st with
      rows := st.rows ++ [st.row],
      row := [],
      availRow := List.range st.order,
      initCols := st.cols } := by
  have hnodup : st.row.Nodup := h.phase_inv.1 hph
  have hrlt : st.rows.length < st.order := lt_of_le_of_ne h.rows_le hne
  refine ⟨?_, ?_, ?_, ?_, ?_, ?_, ?_, ?_, ?_, ?_, ?_, ?_, ?_, ?_, ?_, ?_, ?_⟩
  · exact h.cols_len
  · exact h.cols_len
  · show (st.rows ++ [st.row]).length ≤ st.order
    rw [List.length_append]
    simpa using hrlt
  · intro r hr
    rw [List.mem_append, List.mem_singleton] at hr
    rcases hr with hr | rfl
    · exact h.rows_shape r hr
    · exact hrow
  · intro r hr
    rw [List.mem_append, List.mem_singleton] at hr
    rcases hr with hr | rfl
    · exact h.rows_nodup r hr
    · exact hnodup
  · intro r hr
    rw [List.mem_append, List.mem_singleton] at hr
    rcases hr with hr | rfl
    · exact h.rows_lt r hr
    · exact h.row_lt
  · intro c hc
    have hc' : c < st.order := hc
    show (columnEntries (st.rows ++ [st.row]) c).Nodup
    rw [columnEntries_append]
    refine nodup_append_singleton _ _ (h.colEnt_nodup c hc') ?_
    have hplace : st.row.getD c 0 ∈ st.initCols.getD c [] :=
      h.placed c (by omega)
    exact ((h.initCols_iff c hc' _).mp hplace).2
  · intro c hc z
    have hc' : c < st.order := hc
    show z ∈ st.cols.getD c [] ↔
      z < st.order ∧ z ∉ columnEntries (st.rows ++ [st.row]) c
    rw [columnEntries_append, h.cols_iff c hc', h.initCols_iff c hc',
      List.mem_append, List.mem_singleton]
    constructor
    · rintro ⟨⟨hz, hnm⟩, hni⟩
      refine ⟨hz, ?_⟩
      rintro (hmem | rfl)
      · exact hnm hmem
      · exact hni ⟨by omega, rfl⟩
    · rintro ⟨hz, hnm⟩
      refine ⟨⟨hz, fun hmem => hnm (Or.inl hmem)⟩, ?_⟩
      rintro ⟨-, heq⟩
      exact hnm (Or.inr heq.symm)
  · intro c hc z
    constructor
    · intro hz
      refine ⟨hz, ?_⟩
      rintro ⟨h2, -⟩
      exact absurd h2 (Nat.not_lt_zero c)
    · intro hz
      exact hz.1
  · exact Nat.zero_le st.order
  · intro x hx
    cases hx
  · intro z
    show z ∈ List.range st.order ↔ _
    rw [List.mem_range]
    constructor
    · intro hz
      exact ⟨hz, fun hmem => List.not_mem_nil z hmem⟩
    · intro hz
      exact hz.1
  · exact List.nodup_range st.order
  · exact h.cols_nodup
  · exact h.cols_nodup
  · intro c hc
    cases hc
  · constructor
    · intro _
      exact List.nodup_nil
    · intro v oi oe ie hph2
      have : st.phase = .chain v oi oe ie := hph2
      rw [hph] at this
      exact GenPhase.noConfusion this

end Quasi

namespace Quasi

/-- Invariant preservation: placing a valid element at the end of the row (the
normal branch of `generateRow`). -/
lemma inv_place (st : GenState) (h : GenInv st)
    (hrow : st.row.length ≠ st.order) (hph : st.phase = .fill)
    (s : Nat) (hs1 : s ∈ st.cols.getD st.row.length [])
    (hs2 : s ∈ st.availRow) :
    GenInv { st with
      cols := st.cols.set st.row.length
        ((st.cols.getD st.row.length []).erase s),
      availRow := st.availRow.erase s,
      row := st.row ++ [s],
      pos := st.pos + 1 } := by
  have hlt : st.row.length < st.order := lt_of_le_of_ne h.row_len hrow
  have hnodup : st.row.Nodup := h.phase_inv.1 hph
  have hs3 : s ∈ st.initCols.getD st.row.length [] :=
    ((h.cols_iff _ hlt s).mp hs1).1
  have hso : s < st.order := ((h.initCols_iff _ hlt s).mp hs3).1
  have hsrow : s ∉ st.row := ((h.availRow_iff s).mp hs2).2
  have hcolslen : st.row.length < st.cols.length := by
    rw [h.cols_len]
    exact hlt
  refine ⟨?_, ?_, ?_, ?_, ?_, ?_, ?_, ?_, ?_, ?_, ?_, ?_, ?_, ?_, ?_, ?_, ?_⟩
  · show (st.cols.set st.row.length
      ((st.cols.getD st.row.length []).erase s)).length = st.order
    rw [List.length_set]
    exact h.cols_len
  · exact h.initCols_len
  · exact h.rows_le
  · exact h.rows_shape
  · exact h.rows_nodup
  · exact h.rows_lt
  · intro c hc
    exact h.colEnt_nodup c hc
  · intro c hc z
    exact h.initCols_iff c hc z
  · intro c hc z
    have hc' : c < st.order := hc
    show z ∈ (st.cols.set st.row.length
        ((st.cols.getD st.row.length []).erase s)).getD c [] ↔
      z ∈ st.initCols.getD c [] ∧
        ¬(c < (st.row ++ [s]).length ∧ (st.row ++ [s]).getD c 0 = z)
    rw [show (st.row ++ [s]).length = st.row.length + 1 from by simp]
    by_cases hcc : c = st.row.length
    · subst hcc
      rw [getDl_set_self _ _ _ hcolslen, (h.cols_nodup _).mem_erase_iff,
        h.cols_iff _ hlt z, getD_append_last]
      constructor
      · rintro ⟨hzs, hzi, -⟩
        refine ⟨hzi, ?_⟩
        rintro ⟨-, heq⟩
        exact hzs heq.symm
      · rintro ⟨hzi, hni⟩
        refine ⟨?_, hzi, ?_⟩
        · intro heq
          exact hni ⟨by omega, heq.symm⟩
        · rintro ⟨hlt2, -⟩
          exact absurd hlt2 (lt_irrefl _)
    · rw [getDl_set_ne _ _ _ _ (fun he => hcc he.symm), h.cols_iff c hc' z]
      constructor
      · rintro ⟨hzi, hni⟩
        refine ⟨hzi, ?_⟩
        rintro ⟨hlt2, heq⟩
        have hclt : c < st.row.length := by
          rcases Nat.lt_or_ge c st.row.length with h2 | h2
          · exact h2
          · exact absurd (by omega : c = st.row.length) hcc
        rw [getD_append_left _ _ _ hclt] at heq
        exact hni ⟨hclt, heq⟩
      · rintro ⟨hzi, hni⟩
        refine ⟨hzi, ?_⟩
        rintro ⟨hlt2, heq⟩
        refine hni ⟨by omega, ?_⟩
        rw [getD_append_left _ _ _ hlt2]
        exact heq
  · show (st.row ++ [s]).length ≤ st.order
    rw [List.length_append]
    simpa using hlt
  · intro x hx
    have hx' : x ∈ st.row ++ [s] := hx
    rw [List.mem_append, List.mem_singleton] at hx'
    show x < st.order
    rcases hx' with hx' | rfl
    · exact h.row_lt x hx'
    · exact hso
  · intro z
    show z ∈ st.availRow.erase s ↔ z < st.order ∧ z ∉ st.row ++ [s]
    rw [h.availRow_nodup.mem_erase_iff, h.availRow_iff z, List.mem_append,
      List.mem_singleton]
    constructor
    · rintro ⟨hzs, hzo, hzr⟩
      refine ⟨hzo, ?_⟩
      rintro (hmem | rfl)
      · exact hzr hmem
      · exact hzs rfl
    · rintro ⟨hzo, hnm⟩
      refine ⟨?_, hzo, fun hmem => hnm (Or.inl hmem)⟩
      intro heq
      exact hnm (Or.inr heq)
  · show (st.availRow.erase s).Nodup
    exact h.availRow_nodup.erase s
  · intro c
    show ((st.cols.set st.row.length
      ((st.cols.getD st.row.length []).erase s)).getD c []).Nodup
    by_cases hcc : c = st.row.length
    · subst hcc
      rw [getDl_set_self _ _ _ hcolslen]
      exact (h.cols_nodup _).erase s
    · rw [getDl_set_ne _ _ _ _ (fun he => hcc he.symm)]
      exact h.cols_nodup c
  · exact h.initCols_nodup
  · intro c hc
    have hc' : c < st.row.length + 1 := by
      have h2 : c < (st.row ++ [s]).length := hc
      simpa using h2
    show (st.row ++ [s]).getD c 0 ∈ st.initCols.getD c []
    by_cases hcc : c = st.row.length
    · subst hcc
      rw [getD_append_last]
      exact hs3
    · have hclt : c < st.row.length := by omega
      rw [getD_append_left _ _ _ hclt]
      exact h.placed c hclt
  · constructor
    · intro _
      show (st.row ++ [s]).Nodup
      exact nodup_append_singleton _ _ hnodup hsrow
    · intro v oi oe ie hph2
      have h2 : st.phase = .chain v oi oe ie := hph2
      rw [hph] at h2
      exact GenPhase.noConfusion h2

/-- Invariant preservation: entering a displacement chain on a column
conflict. -/
lemma inv_conflict (st : GenState) (h : GenInv st)
    (hrow : st.row.length ≠ st.order) (hph : st.phase = .fill)
    (a : Nat) (ha : a ∈ st.cols.getD st.row.length [])
    (hna : a ∉ st.availRow) :
    GenInv { st with
      phase := .chain [] (st.row.indexOf a) a a,
      pos := st.pos + 1 } := by
  have hlt : st.row.length < st.order := lt_of_le_of_ne h.row_len hrow
  have hnodup : st.row.Nodup := h.phase_inv.1 hph
  have ha3 : a ∈ st.initCols.getD st.row.length [] :=
    ((h.cols_iff _ hlt a).mp ha).1
  have hao : a < st.order := ((h.initCols_iff _ hlt a).mp ha3).1
  have harow : a ∈ st.row := by
    by_contra hnr
    exact hna ((h.availRow_iff a).mpr ⟨hao, hnr⟩)
  refine ⟨h.cols_len, h.initCols_len, h.rows_le, h.rows_shape, h.rows_nodup,
    h.rows_lt, h.colEnt_nodup, h.initCols_iff, h.cols_iff, h.row_len,
    h.row_lt, h.availRow_iff, h.availRow_nodup, h.cols_nodup,
    h.initCols_nodup, h.placed, ?_⟩
  constructor
  · intro hph2
    exact absurd (hph2 : GenPhase.chain [] (st.row.indexOf a) a a = .fill)
      (by intro h2; exact GenPhase.noConfusion h2)
  · intro v oi oe ie hph2
    have h2 : GenPhase.chain [] (st.row.indexOf a) a a = .chain v oi oe ie :=
      hph2
    injection h2 with e1 e2 e3 e4
    subst e1
    subst e2
    subst e3
    subst e4
    refine ⟨indexOf_lt_of_mem _ _ harow,
      indexOf_getD _ _ (indexOf_lt_of_mem _ _ harow), ?_, ?_⟩
    · show st.row.count a ≤ 2
      have := List.nodup_iff_count_le_one.mp hnodup a
      omega
    · intro x _
      show st.row.count x ≤ 1
      exact List.nodup_iff_count_le_one.mp hnodup x

end Quasi

namespace Quasi

/-- Invariant preservation along one `makeElementAvailable` iteration, for any
successor phase whose `PhaseInv` holds. -/
lemma inv_chain_aux (st : GenState) (h : GenInv st)
    (v : List Nat) (oi oe ie : Nat) (hph : st.phase = .chain v oi oe ie)
    (w : Nat) (hw : w ∈ st.initCols.getD oi []) (ph2 : GenPhase)
    (hph2 : PhaseInv { st with
      row := st.row.set oi w,
      availRow := (if oe ∈ st.row.set oi w then st.availRow
        else sinsert oe st.availRow).erase w,
      cols := st.cols.set oi ((sinsert oe (st.cols.getD oi [])).erase w),
      phase := ph2,
      pos := st.pos + 1 }) :
    GenInv { st with
      row := st.row.set oi w,
      availRow := (if oe ∈ st.row.set oi w then st.availRow
        else sinsert oe st.availRow).erase w,
      cols := st.cols.set oi ((sinsert oe (st.cols.getD oi [])).erase w),
      phase := ph2,
      pos := st.pos + 1 } := by
  obtain ⟨hoi, hoe, hcnt⟩ := h.phase_inv.2 v oi oe ie hph
  have hoilt : oi < st.order := lt_of_lt_of_le hoi h.row_len
  have hwlt : w < st.order := ((h.initCols_iff oi hoilt w).mp hw).1
  have hoer : oe ∈ st.row := hoe ▸ getD_mem st.row oi hoi
  have hoelt : oe < st.order := h.row_lt oe hoer
  have hoeinit : oe ∈ st.initCols.getD oi [] := hoe ▸ h.placed oi hoi
  have hcolslen : oi < st.cols.length := by
    rw [h.cols_len]
    exact hoilt
  have hR2len : (st.row.set oi w).length = st.row.length :=
    List.length_set _ _ _
  have hR2oi : (st.row.set oi w).getD oi 0 = w := getD_set_self _ _ _ hoi
  have hwR2 : w ∈ st.row.set oi w := by
    have h2 := getD_mem (st.row.set oi w) oi (by rw [hR2len]; exact hoi)
    rw [hR2oi] at h2
    exact h2
  have hcount : ∀ x, (st.row.set oi w).count x + (if oe = x then 1 else 0) =
      st.row.count x + (if w = x then 1 else 0) := by
    intro x
    have h2 := count_set_add st.row oi hoi w x
    rw [hoe] at h2
    exact h2
  have hmemR2 : ∀ z, z ≠ w → z ≠ oe → (z ∈ st.row.set oi w ↔ z ∈ st.row) := by
    intro z hzw hzoe
    have hc := hcount z
    rw [if_neg (fun he => hzoe he.symm), if_neg (fun he => hzw he.symm)] at hc
    constructor
    · intro hm
      rw [mem_iff_count_pos] at hm ⊢
      omega
    · intro hm
      rw [mem_iff_count_pos] at hm ⊢
      omega
  have hbase_nodup : (if oe ∈ st.row.set oi w then st.availRow
      else sinsert oe st.availRow).Nodup := by
    split
    · exact h.availRow_nodup
    · exact sinsert_nodup _ _ h.availRow_nodup
  refine ⟨?_, ?_, ?_, ?_, ?_, ?_, ?_, ?_, ?_, ?_, ?_, ?_, ?_, ?_, ?_, ?_, ?_⟩
  · show (st.cols.set oi ((sinsert oe (st.cols.getD oi [])).erase w)).length =
      st.order
    rw [List.length_set]
    exact h.cols_len
  · exact h.initCols_len
  · exact h.rows_le
  · exact h.rows_shape
  · exact h.rows_nodup
  · exact h.rows_lt
  · intro c hc
    exact h.colEnt_nodup c hc
  · intro c hc z
    exact h.initCols_iff c hc z
  · intro c hc z
    have hc' : c < st.order := hc
    show z ∈ (st.cols.set oi
        ((sinsert oe (st.cols.getD oi [])).erase w)).getD c [] ↔
      z ∈ st.initCols.getD c [] ∧
        ¬(c < (st.row.set oi w).length ∧ (st.row.set oi w).getD c 0 = z)
    rw [hR2len]
    by_cases hcc : c = oi
    · subst hcc
      rw [getDl_set_self _ _ _ hcolslen,
        (sinsert_nodup oe _ (h.cols_nodup c)).mem_erase_iff, mem_sinsert,
        h.cols_iff c hoilt z, hoe, hR2oi]
      constructor
      · rintro ⟨hzw, hz2⟩
        rcases hz2 with rfl | ⟨hzi, hni⟩
        · refine ⟨hoeinit, ?_⟩
          rintro ⟨-, heq⟩
          exact hzw heq.symm
        · refine ⟨hzi, ?_⟩
          rintro ⟨-, heq⟩
          exact hzw heq.symm
      · rintro ⟨hzi, hni⟩
        refine ⟨?_, ?_⟩
        · intro heq
          exact hni ⟨hoi, heq.symm⟩
        · by_cases hzoe : z = oe
          · exact Or.inl hzoe
          · refine Or.inr ⟨hzi, ?_⟩
            rintro ⟨-, heq⟩
            exact hzoe heq.symm
    · rw [getDl_set_ne _ _ _ _ (fun he => hcc he.symm), h.cols_iff c hc' z,
        getD_set_ne st.row oi c w (fun he => hcc he.symm)]
  · show (st.row.set oi w).length ≤ st.order
    rw [hR2len]
    exact h.row_len
  · intro x hx
    have hx' : x ∈ st.row.set oi w := hx
    show x < st.order
    rcases List.mem_or_eq_of_mem_set hx' with h2 | rfl
    · exact h.row_lt x h2
    · exact hwlt
  · intro z
    show z ∈ (if oe ∈ st.row.set oi w then st.availRow
        else sinsert oe st.availRow).erase w ↔
      z < st.order ∧ z ∉ st.row.set oi w
    rw [hbase_nodup.mem_erase_iff]
    by_cases hzw : z = w
    · subst hzw
      constructor
      · rintro ⟨hne, -⟩
        exact absurd rfl hne
      · rintro ⟨-, hnm⟩
        exact absurd hwR2 hnm
    · by_cases hoe2 : oe ∈ st.row.set oi w
      · rw [if_pos hoe2, h.availRow_iff z]
        constructor
        · rintro ⟨-, hzo, hzr⟩
          refine ⟨hzo, ?_⟩
          intro hzR2
          by_cases hzoe : z = oe
          · subst hzoe
            exact hzr hoer
          · exact hzr ((hmemR2 z hzw hzoe).mp hzR2)
        · rintro ⟨hzo, hzr⟩
          refine ⟨hzw, hzo, ?_⟩
          intro hzrow
          by_cases hzoe : z = oe
          · subst hzoe
            exact hzr hoe2
          · exact hzr ((hmemR2 z hzw hzoe).mpr hzrow)
      · rw [if_neg hoe2, mem_sinsert, h.availRow_iff z]
        constructor
        · rintro ⟨-, hz2⟩
          rcases hz2 with rfl | ⟨hzo, hzr⟩
          · exact ⟨hoelt, hoe2⟩
          · refine ⟨hzo, ?_⟩
            intro hzR2
            by_cases hzoe : z = oe
            · subst hzoe
              exact hoe2 hzR2
            · exact hzr ((hmemR2 z hzw hzoe).mp hzR2)
        · rintro ⟨hzo, hzr⟩
          refine ⟨hzw, ?_⟩
          by_cases hzoe : z = oe
          · exact Or.inl hzoe
          · refine Or.inr ⟨hzo, ?_⟩
            intro hzrow
            exact hzr ((hmemR2 z hzw hzoe).mpr hzrow)
  · show ((if oe ∈ st.row.set oi w then st.availRow
      else sinsert oe st.availRow).erase w).Nodup
    exact hbase_nodup.erase w
  · intro c
    show ((st.cols.set oi
      ((sinsert oe (st.cols.getD oi [])).erase w)).getD c []).Nodup
    by_cases hcc : c = oi
    · subst hcc
      rw [getDl_set_self _ _ _ hcolslen]
      exact (sinsert_nodup oe _ (h.cols_nodup c)).erase w
    · rw [getDl_set_ne _ _ _ _ (fun he => hcc he.symm)]
      exact h.cols_nodup c
  · exact h.initCols_nodup
  · intro c hc
    have hc' : c < st.row.length := by
      have h2 : c < (st.row.set oi w).length := hc
      rw [hR2len] at h2
      exact h2
    show (st.row.set oi w).getD c 0 ∈ st.initCols.getD c []
    by_cases hcc : c = oi
    · subst hcc
      rw [hR2oi]
      exact hw
    · rw [getD_set_ne st.row oi c w (fun he => hcc he.symm)]
      exact h.placed c hc'
  · exact hph2

end Quasi

namespace Quasi

/-- Invariant preservation: a chain iteration that displaces into a fresh
element and breaks back to row filling. -/
lemma inv_chain_break (st : GenState) (h : GenInv st)
    (v : List Nat) (oi oe ie : Nat) (hph : st.phase = .chain v oi oe ie)
    (w : Nat) (hw : w ∈ st.initCols.getD oi [])
    (hbr : st.row.length ≤ st.row.indexOf w) :
    GenInv { st with
      row := st.row.set oi w,
      availRow := (if oe ∈ st.row.set oi w then st.availRow
        else sinsert oe st.availRow).erase w,
      cols := st.cols.set oi ((sinsert oe (st.cols.getD oi [])).erase w),
      phase := .fill,
      pos := st.pos + 1 } := by
  obtain ⟨hoi, hoe, hcnt⟩ := h.phase_inv.2 v oi oe ie hph
  have hwrow : w ∉ st.row := not_mem_of_length_le_indexOf _ _ hbr
  have hoer : oe ∈ st.row := hoe ▸ getD_mem st.row oi hoi
  have hoew : oe ≠ w := fun he => hwrow (he ▸ hoer)
  refine inv_chain_aux st h v oi oe ie hph w hw .fill ?_
  constructor
  · intro _
    show (st.row.set oi w).Nodup
    rw [List.nodup_iff_count_le_one]
    intro x
    have hc := count_set_add st.row oi hoi w x
    rw [hoe] at hc
    have hwcnt : st.row.count w = 0 := by
      rw [List.count_eq_zero]
      exact hwrow
    by_cases hxw : x = w
    · subst hxw
      rw [if_neg hoew, if_pos rfl] at hc
      omega
    · by_cases hxoe : x = oe
      · subst hxoe
        rw [if_pos rfl, if_neg (fun he => hoew he.symm)] at hc
        have h4 := hcnt.1
        omega
      · rw [if_neg (fun he => hxoe he.symm),
          if_neg (fun he => hxw he.symm)] at hc
        have h4 := hcnt.2 x hxoe
        omega
  · intro v2 oi2 oe2 ie2 hph2
    exact GenPhase.noConfusion
      (hph2 : GenPhase.fill = GenPhase.chain v2 oi2 oe2 ie2)

/-- Invariant preservation: a chain iteration that displaces an element already
in the row and continues the chain at its slot. -/
lemma inv_chain_cont (st : GenState) (h : GenInv st)
    (v : List Nat) (oi oe ie : Nat) (hph : st.phase = .chain v oi oe ie)
    (w : Nat) (hw : w ∈ st.initCols.getD oi [])
    (hco : st.row.indexOf w < st.row.length) (v2 : List Nat) :
    GenInv { st with
      row := st.row.set oi w,
      availRow := (if oe ∈ st.row.set oi w then st.availRow
        else sinsert oe st.availRow).erase w,
      cols := st.cols.set oi ((sinsert oe (st.cols.getD oi [])).erase w),
      phase := .chain v2 (st.row.indexOf w) w ie,
      pos := st.pos + 1 } := by
  obtain ⟨hoi, hoe, hcnt⟩ := h.phase_inv.2 v oi oe ie hph
  refine inv_chain_aux st h v oi oe ie hph w hw _ ?_
  constructor
  · intro hf
    exact GenPhase.noConfusion
      (hf : GenPhase.chain v2 (st.row.indexOf w) w ie = GenPhase.fill)
  · intro v3 oi3 oe3 ie3 hph3
    have h3 : GenPhase.chain v2 (st.row.indexOf w) w ie =
        GenPhase.chain v3 oi3 oe3 ie3 := hph3
    injection h3 with e1 e2 e3 e4
    subst e1
    subst e2
    subst e3
    subst e4
    refine ⟨?_, ?_, ?_, ?_⟩
    · show st.row.indexOf w < (st.row.set oi w).length
      rw [List.length_set]
      exact hco
    · show (st.row.set oi w).getD (st.row.indexOf w) 0 = w
      by_cases hcc : st.row.indexOf w = oi
      · rw [hcc, getD_set_self _ _ _ hoi]
      · rw [getD_set_ne st.row oi _ w (fun he => hcc he.symm)]
        exact indexOf_getD st.row w hco
    · show (st.row.set oi w).count w ≤ 2
      have hc := count_set_add st.row oi hoi w w
      rw [hoe, if_pos rfl] at hc
      by_cases hoew : oe = w
      · rw [if_pos hoew] at hc
        have h4 := hcnt.1
        rw [hoew] at h4
        omega
      · rw [if_neg hoew] at hc
        have h4 := hcnt.2 w (fun he => hoew he.symm)
        omega
    · intro x hxw
      show (st.row.set oi w).count x ≤ 1
      have hc := count_set_add st.row oi hoi w x
      rw [hoe, if_neg (show ¬(w = x) from fun he => hxw he.symm)] at hc
      by_cases hxoe : x = oe
      · subst hxoe
        rw [if_pos rfl] at hc
        have h4 := hcnt.1
        omega
      · rw [if_neg (show ¬(oe = x) from fun he => hxoe he.symm)] at hc
        have h4 := hcnt.2 x hxoe
        omega

end Quasi

namespace Quasi

/-- One `.more` step of the generator preserves the invariant (and the
order). -/
lemma genStep_more_inv (oracle : Nat → Nat) (st st2 : GenState) (h : GenInv st)
    (hstep : genStep oracle st = .more st2) :
    GenInv st2 ∧ st2.order = st.order := by
  obtain ⟨o, rows, cols, initCols, row, availRow, phase, pos⟩ := st
  cases phase with
  | fill =>
    simp only [genStep] at hstep
    by_cases hdone : rows.length = o
    · rw [if_pos hdone] at hstep
      exact StepResult.noConfusion hstep
    · rw [if_neg hdone] at hstep
      by_cases hrl : row.length = o
      · rw [if_pos hrl] at hstep
        injection hstep with h2
        subst h2
        exact ⟨inv_commit ⟨o, rows, cols, initCols, row, availRow, .fill, pos⟩
          h hdone hrl rfl, rfl⟩
      · rw [if_neg hrl] at hstep
        by_cases hfil : (cols.getD row.length []).filter (· ∈ availRow) = []
        · rw [if_pos hfil] at hstep
          by_cases hav : cols.getD row.length [] = []
          · rw [if_pos hav] at hstep
            exact StepResult.noConfusion hstep
          · rw [if_neg hav] at hstep
            injection hstep with h2
            subst h2
            refine ⟨inv_conflict
              ⟨o, rows, cols, initCols, row, availRow, .fill, pos⟩
              h hrl rfl _ (pick_mem _ _ hav) ?_, rfl⟩
            intro hmem
            have h3 := List.filter_eq_nil_iff.mp hfil _
              (pick_mem _ (oracle pos) hav)
            simp only [decide_eq_true_eq] at h3
            exact h3 hmem
        · rw [if_neg hfil] at hstep
          injection hstep with h2
          subst h2
          have hsmem := pick_mem _ (oracle pos) hfil
          rw [List.mem_filter] at hsmem
          exact ⟨inv_place ⟨o, rows, cols, initCols, row, availRow, .fill, pos⟩
            h hrl rfl _ hsmem.1 (by simpa using hsmem.2), rfl⟩
  | chain v oi oe ie =>
    simp only [genStep] at hstep
    by_cases hdone : rows.length = o
    · rw [if_pos hdone] at hstep
      exact StepResult.noConfusion hstep
    · rw [if_neg hdone] at hstep
      by_cases hf : ((initCols.getD oi []).erase ie).filter (· ∉ v) = []
      · rw [if_pos hf] at hstep
        by_cases hch : (initCols.getD oi []).erase ie = []
        · rw [if_pos hch] at hstep
          exact StepResult.noConfusion hstep
        · rw [if_neg hch] at hstep
          have hw' : pick ((initCols.getD oi []).erase ie) (oracle pos) ∈
              initCols.getD oi [] :=
            List.mem_of_mem_erase (pick_mem _ _ hch)
          by_cases hbr : row.length ≤
              row.indexOf (pick ((initCols.getD oi []).erase ie) (oracle pos))
          · rw [if_pos hbr] at hstep
            injection hstep with h2
            subst h2
            exact ⟨inv_chain_break
              ⟨o, rows, cols, initCols, row, availRow, .chain v oi oe ie, pos⟩
              h v oi oe ie rfl _ hw' hbr, rfl⟩
          · rw [if_neg hbr] at hstep
            injection hstep with h2
            subst h2
            exact ⟨inv_chain_cont
              ⟨o, rows, cols, initCols, row, availRow, .chain v oi oe ie, pos⟩
              h v oi oe ie rfl _ hw' (Nat.lt_of_not_le hbr) _, rfl⟩
      · rw [if_neg hf, if_neg hf] at hstep
        have hw' : pick (((initCols.getD oi []).erase ie).filter (· ∉ v))
            (oracle pos) ∈ initCols.getD oi [] :=
          List.mem_of_mem_erase ((List.mem_filter.mp (pick_mem _ _ hf)).1)
        by_cases hbr : row.length ≤ row.indexOf
            (pick (((initCols.getD oi []).erase ie).filter (· ∉ v))
              (oracle pos))
        · rw [if_pos hbr] at hstep
          injection hstep with h2
          subst h2
          exact ⟨inv_chain_break
            ⟨o, rows, cols, initCols, row, availRow, .chain v oi oe ie, pos⟩
            h v oi oe ie rfl _ hw' hbr, rfl⟩
        · rw [if_neg hbr] at hstep
          injection hstep with h2
          subst h2
          exact ⟨inv_chain_cont
            ⟨o, rows, cols, initCols, row, availRow, .chain v oi oe ie, pos⟩
            h v oi oe ie rfl _ hw' (Nat.lt_of_not_le hbr) _, rfl⟩

/-- A `.done` step returns exactly the completed rows, and only when their
number equals the order. -/
lemma genStep_done_eq (oracle : Nat → Nat) (st : GenState)
    (tb : List (List Nat)) (hstep : genStep oracle st = .done tb) :
    tb = st.rows ∧ st.rows.length = st.order := by
  obtain ⟨o, rows, cols, initCols, row, availRow, phase, pos⟩ := st
  cases phase with
  | fill =>
    simp only [genStep] at hstep
    by_cases hdone : rows.length = o
    · rw [if_pos hdone] at hstep
      injection hstep with h2
      exact ⟨h2.symm, hdone⟩
    · rw [if_neg hdone] at hstep
      exfalso
      by_cases hrl : row.length = o
      · rw [if_pos hrl] at hstep
        exact StepResult.noConfusion hstep
      · rw [if_neg hrl] at hstep
        by_cases hfil : (cols.getD row.length []).filter (· ∈ availRow) = []
        · rw [if_pos hfil] at hstep
          by_cases hav : cols.getD row.length [] = []
          · rw [if_pos hav] at hstep
            exact StepResult.noConfusion hstep
          · rw [if_neg hav] at hstep
            exact StepResult.noConfusion hstep
        · rw [if_neg hfil] at hstep
          exact StepResult.noConfusion hstep
  | chain v oi oe ie =>
    simp only [genStep] at hstep
    by_cases hdone : rows.length = o
    · rw [if_pos hdone] at hstep
      injection hstep with h2
      exact ⟨h2.symm, hdone⟩
    · rw [if_neg hdone] at hstep
      exfalso
      by_cases hf : ((initCols.getD oi []).erase ie).filter (· ∉ v) = []
      · rw [if_pos hf] at hstep
        by_cases hch : (initCols.getD oi []).erase ie = []
        · rw [if_pos hch] at hstep
          exact StepResult.noConfusion hstep
        · rw [if_neg hch] at hstep
          by_cases hbr : row.length ≤
              row.indexOf (pick ((initCols.getD oi []).erase ie) (oracle pos))
          · rw [if_pos hbr] at hstep
            exact StepResult.noConfusion hstep
          · rw [if_neg hbr] at hstep
            exact StepResult.noConfusion hstep
      · rw [if_neg hf, if_neg hf] at hstep
        by_cases hbr : row.length ≤ row.indexOf
            (pick (((initCols.getD oi []).erase ie).filter (· ∉ v))
              (oracle pos))
        · rw [if_pos hbr] at hstep
          exact StepResult.noConfusion hstep
        · rw [if_neg hbr] at hstep
          exact StepResult.noConfusion hstep

end Quasi

namespace Quasi

lemma getD_mem_list (l : List (List Nat)) (i : Nat) (h : i < l.length) :
    l.getD i [] ∈ l := by
  rw [List.getD_eq_getElem l [] h]
  exact List.getElem_mem h

/-- Every table returned by `genRun` from an invariant state consists of
`order` rows of length `order`, each a duplicate-free list of elements below
`order`, with duplicate-free columns. -/
lemma genRun_inv (oracle : Nat → Nat) : ∀ (fuel : Nat) (st : GenState),
    GenInv st → ∀ tb, genRun oracle fuel st = some tb →
      tb.length = st.order ∧ (∀ r ∈ tb, r.length = st.order) ∧
      (∀ r ∈ tb, r.Nodup) ∧ (∀ r ∈ tb, ∀ x ∈ r, x < st.order) ∧
      (∀ c, c < st.order → (columnEntries tb c).Nodup) := by
  intro fuel
  induction fuel with
  | zero =>
    intro st _ tb hrun
    simp only [genRun] at hrun
    exact Option.noConfusion hrun
  | succ fuel ih =>
    intro st h tb hrun
    simp only [genRun] at hrun
    cases hstep : genStep oracle st with
    | done t2 =>
      simp only [hstep] at hrun
      injection hrun with h2
      subst h2
      obtain ⟨rfl, hlen⟩ := genStep_done_eq oracle st t2 hstep
      exact ⟨hlen, h.rows_shape, h.rows_nodup, h.rows_lt, h.colEnt_nodup⟩
    | fail =>
      simp only [hstep] at hrun
      exact Option.noConfusion hrun
    | more stN =>
      simp only [hstep] at hrun
      obtain ⟨hinv2, hord⟩ := genStep_more_inv oracle st stN h hstep
      have hres := ih stN hinv2 tb hrun
      rw [hord] at hres
      exact hres

/-- A family of rows with the shape, range, row-Nodup and column-Nodup
properties passes the Latin-square validator once cast to an `Int` table. -/
lemma latin_of_props (rows : List (List Nat)) (o : Nat) (h1 : rows.length = o)
    (h2 : ∀ r ∈ rows, r.length = o) (h3 : ∀ r ∈ rows, r.Nodup)
    (h4 : ∀ r ∈ rows, ∀ x ∈ r, x < o)
    (h5 : ∀ c, c < o → (columnEntries rows c).Nodup) :
    isLatinSquare (rows.map fun r => r.map fun x : Nat => (x : Int)) = true := by
  rw [isLatinSquare_iff_latinProp]
  have hlen : (rows.map fun r => r.map fun x : Nat => (x : Int)).length = o := by
    rw [List.length_map]
    exact h1
  have hentry : ∀ r, r < o → ∀ c, c < o →
      tableEntry (rows.map fun r => r.map fun x : Nat => (x : Int)) r c =
        ((rows.getD r []).getD c 0 : Int) := by
    intro r hr c hc
    have hrlen : r < rows.length := by omega
    have hrowlen : (rows.getD r []).length = o :=
      h2 _ (getD_mem_list rows r hrlen)
    have hrow : (rows.map fun r => r.map fun x : Nat => (x : Int)).getD r [] =
        (rows.getD r []).map fun x : Nat => (x : Int) := by
      rw [List.getD_eq_getElem _ []
          (show r < (rows.map fun r => r.map fun x : Nat => (x : Int)).length from
            by rw [List.length_map]; exact hrlen),
        List.getElem_map, List.getD_eq_getElem rows [] hrlen]
    unfold tableEntry
    rw [hrow]
    rw [List.getD_eq_getElem _ (-1)
        (show c < ((rows.getD r []).map fun x : Nat => (x : Int)).length from
          by rw [List.length_map, hrowlen]; exact hc),
      List.getElem_map,
      List.getD_eq_getElem _ 0 (show c < (rows.getD r []).length from
        by rw [hrowlen]; exact hc)]
  have hcolEntry : ∀ r, r < o → ∀ c, c < o →
      (columnEntries rows c).getD r 0 = (rows.getD r []).getD c 0 := by
    intro r hr c hc
    have hrlen : r < rows.length := by omega
    unfold columnEntries
    rw [List.getD_eq_getElem _ 0
        (show r < (rows.map fun rr => rr.getD c 0).length from
          by rw [List.length_map]; exact hrlen),
      List.getElem_map, List.getD_eq_getElem rows [] hrlen]
  refine ⟨?_, ?_, ?_⟩
  · intro r hr c hc
    rw [hlen] at hr hc
    rw [hentry r hr c hc]
    have hrlen : r < rows.length := by omega
    have hrowlen : (rows.getD r []).length = o :=
      h2 _ (getD_mem_list rows r hrlen)
    have hmem : (rows.getD r []).getD c 0 ∈ rows.getD r [] :=
      getD_mem _ c (by omega)
    have hval : (rows.getD r []).getD c 0 < o :=
      h4 _ (getD_mem_list rows r hrlen) _ hmem
    constructor
    · exact Int.natCast_nonneg _
    · rw [hlen]
      exact_mod_cast hval
  · intro r hr c hc c2 hc2 hne
    rw [hlen] at hr hc hc2
    rw [hentry r hr c hc, hentry r hr c2 hc2]
    intro heq
    have heq2 : (rows.getD r []).getD c2 0 = (rows.getD r []).getD c 0 :=
      Int.natCast_inj.mp heq
    have hrlen : r < rows.length := by omega
    have hrowlen : (rows.getD r []).length = o :=
      h2 _ (getD_mem_list rows r hrlen)
    have hnd : (rows.getD r []).Nodup := h3 _ (getD_mem_list rows r hrlen)
    rw [List.getD_eq_getElem _ 0 (show c2 < (rows.getD r []).length by omega),
      List.getD_eq_getElem _ 0 (show c < (rows.getD r []).length by omega)]
      at heq2
    exact hne (hnd.getElem_inj_iff.mp heq2)
  · intro c hc r hr r2 hr2 hne
    rw [hlen] at hr hc hr2
    rw [hentry r2 hr2 c hc, hentry r hr c hc]
    intro heq
    have heq2 : (rows.getD r2 []).getD c 0 = (rows.getD r []).getD c 0 :=
      Int.natCast_inj.mp heq
    rw [← hcolEntry r2 hr2 c hc, ← hcolEntry r hr c hc] at heq2
    have hclen : (columnEntries rows c).length = o := by
      unfold columnEntries
      rw [List.length_map]
      exact h1
    have hnd := h5 c hc
    rw [List.getD_eq_getElem _ 0
        (show r2 < (columnEntries rows c).length by omega),
      List.getD_eq_getElem _ 0
        (show r < (columnEntries rows c).length by omega)] at heq2
    exact hne (hnd.getElem_inj_iff.mp heq2)

end Quasi

namespace Quasi

/-- C1: functional correctness of the sequential-replacement-graph generator.
For every order ≥ 1, whenever `generate` returns a table, that table is an
order-by-order table that passes the Latin-square validator `isLatinSquare`
(so every row and every column is a permutation of `0..order-1`); this holds
for every random choice sequence and any number of machine steps. Whether a
run terminates at all is claim C4's matter. -/
theorem claim_C1_generator_latin (oracle : Nat → Nat) (order fuel : Nat)
    (t : Table) (_horder : 1 ≤ order)
    (h : generateSequentialReplacementGraphCayleyTable oracle order fuel =
      some t) :
    t.length = order ∧ (∀ r ∈ t, r.length = order) ∧
      isLatinSquare t = true := by
  unfold generateSequentialReplacementGraphCayleyTable at h
  cases hrun : genRun oracle fuel (initState order) with
  | none =>
    rw [hrun] at h
    exact Option.noConfusion h
  | some rows =>
    rw [hrun, Option.map_some'] at h
    injection h with h2
    subst h2
    obtain ⟨hl, hsh, hnd, hlt, hcol⟩ :=
      genRun_inv oracle fuel (initState order) (genInv_init order) rows hrun
    have hl' : rows.length = order := hl
    have hsh' : ∀ r ∈ rows, r.length = order := hsh
    refine ⟨?_, ?_, ?_⟩
    · rw [List.length_map]
      exact hl'
    · intro r hr
      rw [List.mem_map] at hr
      obtain ⟨r0, hr0, rfl⟩ := hr
      rw [List.length_map]
      exact hsh' r0 hr0
    · exact latin_of_props rows order hl' hsh' hnd hlt hcol

/-- Witness: at order 2 with the all-zero choice sequence the generator
returns `[[0,1],[1,0]]`, which the theorem certifies as a Latin square. -/
theorem claim_C1_generator_latin_witness :
    1 ≤ 2 ∧
    generateSequentialReplacementGraphCayleyTable (fun _ => 0) 2 8 =
      some [[0, 1], [1, 0]] ∧
    (([[0, 1], [1, 0]] : Table).length = 2 ∧
      (∀ r ∈ ([[0, 1], [1, 0]] : Table), r.length = 2) ∧
      isLatinSquare [[0, 1], [1, 0]] = true) :=
  ⟨by decide, by decide,
    claim_C1_generator_latin (fun _ => 0) 2 8 [[0, 1], [1, 0]] (by decide)
      (by decide)⟩

end Quasi
